import Mathlib

/-!
A growable array: the class `Vector<T>` of `src/main.cpp`.

Shallow embedding of the class `Vector<T>` and proofs of its contract.

Modelling decisions.

* The raw buffer `data_` is a list of slots, one per allocated element.  A slot
  is `some v` when it holds a constructed (live) value and `none` when it is
  allocated but uninitialised.  The null pointer of the default constructor is
  the empty list.
* `construct`, `destroy` and the reads `data_[i]` are the primitive memory
  steps.  A step the language leaves undefined (constructing outside the block
  or over a live value, reading or destroying a slot that is not live) stops the
  operation with `Failure.undefined`.
* Every member function returns the signalled failure (`none` for a normal
  return) together with the state of the object at that moment, so that "the
  container is unchanged when the call throws" is a statement about the code.
* `allocator_.allocate n` is an oracle `A : Nat → Bool`: it says whether the
  request for `n` elements is granted.  A refusal is `std::bad_alloc`.
* `size_t` values are natural numbers.  `std::allocator` refuses any request
  above `PTRDIFF_MAX / sizeof(T)`, so a capacity is below `2 ^ 63` in every
  state the program can be in and none of `capacity_ * 2`, `size_ + 1`, `i + 1`
  wraps around; the subtractions `size_ - 1`, `last - first`, `i - 1` are taken
  behind guards that keep them from going below zero.
* A parameter of type `const T&` is a reference: it refers either to an
  object outside the buffer, or to a slot of the buffer, and what it gives is
  what that slot holds at the moment the function reads it.
* The loops are translated with the two combinators `forUp` and `forDown`,
  which take the number of iterations that remain as a structural argument.
* The iterators `begin()`, `end()`, `rbegin()`, `rend()` are raw pointers; a
  pointer into the buffer is its offset from `data_`, an integer, and `++` adds
  one to it.
* A second translation of the member functions puts the buffers in a store of
  blocks and gives every object a pointer into it; it is the one used where
  two objects have to be told apart by the block they own.  It includes the
  copy assignment, which the class does not declare and the language
  generates member by member.
-/

namespace TestTask

/-- What a call can signal instead of returning normally. -/
inductive Failure where
  | out_of_range
  | bad_alloc
  | undefined
  deriving DecidableEq, Repr

/-- The block of storage behind `data_`: one entry per allocated slot. -/
abbrev Buf (α : Type) := List (Option α)

/-- The class `Vector<T>`: the private members `size_`, `capacity_`, `data_`. -/
structure Vector (α : Type) where
  size_ : Nat
  capacity_ : Nat
  data_ : Buf α
  deriving DecidableEq, Repr

/-- The result of a member function: the failure signalled, if any, and the
state of the object when the call ends. -/
abbrev Res (α : Type) := Option Failure × Vector α

/-- The call `allocator_.allocate(n)`: a block of `n` uninitialised slots when the
request is granted. -/
def allocate {α : Type} (A : Nat → Bool) (n : Nat) : Option (Buf α) :=
  if A n then some (List.replicate n none) else none

/-- The step `std::allocator_traits<...>::construct(allocator_, b + p, v)`. -/
def Buf.construct {α : Type} (b : Buf α) (p : Nat) (v : α) : Option Failure × Buf α :=
  match b[p]? with
  | some none => (none, b.set p (some v))
  | _ => (some Failure.undefined, b)

/-- The step `std::allocator_traits<...>::destroy(allocator_, b + p)`. -/
def Buf.destroy {α : Type} (b : Buf α) (p : Nat) : Option Failure × Buf α :=
  match b[p]? with
  | some (some _) => (none, b.set p none)
  | _ => (some Failure.undefined, b)

/-- The value read by the expression `b[p]`; `none` when the slot is not a live
element of the block. -/
def Buf.read {α : Type} (b : Buf α) (p : Nat) : Option α :=
  match b[p]? with
  | some (some v) => some v
  | _ => none

/-- What a parameter of type `const T&` refers to when a member function of a
container is called: an object outside the buffer of the container, which
holds `v` all along, or the slot `i` of the buffer that `data_` points to when
the call starts, as in `vec.push_back(vec[i])`. -/
inductive Arg (α : Type) where
  | val (v : α)
  | elem (i : Nat)
  deriving DecidableEq, Repr

/-- The value read through the reference at some point of the call, when the
buffer is `d`; `released` tells whether the block that `data_` pointed to when
the call started has been released by then.  The result is `none` when the
reference no longer refers to a live element. -/
def Arg.read {α : Type} (a : Arg α) (released : Bool) (d : Buf α) : Option α :=
  match a with
  | Arg.val v => some v
  | Arg.elem i => if released then none else d.read i

/-- The loop `for (size_t i = start; i < start + n; ++i) body`, stopped by the
first failure. -/
def forUp {σ : Type} (body : Nat → σ → Option Failure × σ) : Nat → Nat → σ → Option Failure × σ
  | 0, _, s => (none, s)
  | n + 1, i, s =>
    match body i s with
    | (none, s') => forUp body n (i + 1) s'
    | (some e, s') => (some e, s')

/-- The loop `for (size_t i = start; i > start - n; --i) body`, stopped by the
first failure. -/
def forDown {σ : Type} (body : Nat → σ → Option Failure × σ) : Nat → Nat → σ → Option Failure × σ
  | 0, _, s => (none, s)
  | n + 1, i, s =>
    match body i s with
    | (none, s') => forDown body n (i - 1) s'
    | (some e, s') => (some e, s')

namespace Vector

variable {α : Type}

/-- The default constructor `Vector()`. -/
def new : Vector α := { size_ := 0, capacity_ := 0, data_ := [] }

/-- The constructor `explicit Vector(size_t capacity)`. -/
def withCapacity (A : Nat → Bool) (capacity : Nat) : Except Failure (Vector α) :=
  match allocate A capacity with
  | none => Except.error Failure.bad_alloc
  | some d => Except.ok { size_ := 0, capacity_ := capacity, data_ := d }

/-- Body of the loop of the copy constructor: `construct(data_ + i, other.data_[i])`. -/
def copy_body (other : Vector α) (i : Nat) (d : Buf α) : Option Failure × Buf α :=
  match other.data_.read i with
  | none => (some Failure.undefined, d)
  | some v => d.construct i v

/-- The copy constructor `Vector(const Vector &other)`. -/
def copy (A : Nat → Bool) (other : Vector α) : Except Failure (Vector α) :=
  match allocate A other.capacity_ with
  | none => Except.error Failure.bad_alloc
  | some d =>
    match forUp (copy_body other) other.size_ 0 d with
    | (none, d') => Except.ok { size_ := other.size_, capacity_ := other.capacity_, data_ := d' }
    | (some e, _) => Except.error e

/-- The member `T& operator[](size_t index)`. -/
def subscript (index : Nat) (s : Vector α) : Except Failure α × Vector α :=
  if index ≥ s.size_ then (Except.error Failure.out_of_range, s)
  else
    match s.data_.read index with
    | some v => (Except.ok v, s)
    | none => (Except.error Failure.undefined, s)

/-- The member `const T& operator[](size_t index) const`. -/
def subscript_const (index : Nat) (s : Vector α) : Except Failure α × Vector α :=
  if index ≥ s.size_ then (Except.error Failure.out_of_range, s)
  else
    match s.data_.read index with
    | some v => (Except.ok v, s)
    | none => (Except.error Failure.undefined, s)

/-- The member `size_t size() const`. -/
def size (s : Vector α) : Nat := s.size_

/-- The member `size_t max_size() const`: the allocated capacity. -/
def max_size (s : Vector α) : Nat := s.capacity_

/-- The member `bool empty() const`. -/
def empty (s : Vector α) : Bool := s.size_ == 0

/-- Body of the loop of `reserve`, on the pair (`data_`, `new_data`):
`construct(new_data + i, std::move(data_[i])); destroy(data_ + i)`. -/
def reserve_body (i : Nat) (st : Buf α × Buf α) : Option Failure × (Buf α × Buf α) :=
  match st.1.read i with
  | none => (some Failure.undefined, st)
  | some v =>
    match st.2.construct i v with
    | (some e, nd) => (some e, (st.1, nd))
    | (none, nd) =>
      match st.1.destroy i with
      | (r, od) => (r, (od, nd))

/-- The member `void reserve(size_t cap)`. -/
def reserve (A : Nat → Bool) (cap : Nat) (s : Vector α) : Res α :=
  if cap > s.capacity_ then
    match allocate A cap with
    | none => (some Failure.bad_alloc, s)
    | some new_data =>
      match forUp reserve_body s.size_ 0 (s.data_, new_data) with
      | (some e, st) => (some e, { s with data_ := st.1 })
      | (none, st) => (none, { s with data_ := st.2, capacity_ := cap })
  else (none, s)

/-- Body of the loop of `insert`:
`construct(data_ + i, std::move(data_[i - 1])); destroy(data_ + i - 1)`. -/
def insert_body (i : Nat) (d : Buf α) : Option Failure × Buf α :=
  match d.read (i - 1) with
  | none => (some Failure.undefined, d)
  | some v =>
    match d.construct i v with
    | (some e, d') => (some e, d')
    | (none, d') => d'.destroy (i - 1)

/-- The argument of the growth step: `capacity_ > 0 ? capacity_ * 2 : 1`. -/
def grown (capacity : Nat) : Nat := if capacity > 0 then capacity * 2 else 1

/-- The member `void insert(size_t index, const T& value)`.  The reference
`value` is read where line 96 reads it: after the growth step, which releases
the block the container had when it is taken, and after the shift loop. -/
def insert (A : Nat → Bool) (index : Nat) (value : Arg α) (s : Vector α) : Res α :=
  if index > s.size_ then (some Failure.out_of_range, s)
  else
    match (if s.size_ = s.capacity_ then reserve A (grown s.capacity_) s else (none, s)) with
    | (some e, s1) => (some e, s1)
    | (none, s1) =>
      match forDown insert_body (s1.size_ - index) s1.size_ s1.data_ with
      | (some e, d) => (some e, { s1 with data_ := d })
      | (none, d) =>
        match value.read (decide (s.size_ = s.capacity_)) d with
        | none => (some Failure.undefined, { s1 with data_ := d })
        | some v =>
          match d.construct index v with
          | (some e, d') => (some e, { s1 with data_ := d' })
          | (none, d') => (none, { s1 with data_ := d', size_ := s1.size_ + 1 })

/-- The member `void push_back(const T& v)`.  The reference `v` is read where
line 105 reads it: after the growth step, which releases the block the
container had when it is taken. -/
def push_back (A : Nat → Bool) (v : Arg α) (s : Vector α) : Res α :=
  match (if s.size_ = s.capacity_ then reserve A (grown s.capacity_) s else (none, s)) with
  | (some e, s1) => (some e, s1)
  | (none, s1) =>
    match v.read (decide (s.size_ = s.capacity_)) s1.data_ with
    | none => (some Failure.undefined, s1)
    | some x =>
      match s1.data_.construct s1.size_ x with
      | (some e, d') => (some e, { s1 with data_ := d' })
      | (none, d') => (none, { s1 with data_ := d', size_ := s1.size_ + 1 })

/-- The member `void pop_back()`. -/
def pop_back (s : Vector α) : Res α :=
  if s.size_ > 0 then
    match s.data_.destroy (s.size_ - 1) with
    | (some e, d) => (some e, { s with data_ := d })
    | (none, d) => (none, { s with data_ := d, size_ := s.size_ - 1 })
  else (none, s)

/-- Body of the loop of `erase(size_t)`:
`construct(data_ + i, std::move(data_[i + 1])); destroy(data_ + i + 1)`. -/
def erase_body (i : Nat) (d : Buf α) : Option Failure × Buf α :=
  match d.read (i + 1) with
  | none => (some Failure.undefined, d)
  | some v =>
    match d.construct i v with
    | (some e, d') => (some e, d')
    | (none, d') => d'.destroy (i + 1)

/-- The member `void erase(size_t index)`. -/
def erase (index : Nat) (s : Vector α) : Res α :=
  if index ≥ s.size_ then (some Failure.out_of_range, s)
  else
    match s.data_.destroy index with
    | (some e, d) => (some e, { s with data_ := d })
    | (none, d) =>
      match forUp erase_body (s.size_ - 1 - index) index d with
      | (some e, d') => (some e, { s with data_ := d' })
      | (none, d') => (none, { s with data_ := d', size_ := s.size_ - 1 })

/-- Body of the first loop of `erase(size_t, size_t)`: `destroy(data_ + i)`. -/
def erase_range_destroy (i : Nat) (d : Buf α) : Option Failure × Buf α :=
  d.destroy i

/-- Body of the second loop of `erase(size_t, size_t)`, on the pair
(`first`, `data_`):
`construct(data_ + first++, std::move(data_[i])); destroy(data_ + i)`. -/
def erase_range_body (i : Nat) (st : Nat × Buf α) : Option Failure × (Nat × Buf α) :=
  match st.2.read i with
  | none => (some Failure.undefined, st)
  | some v =>
    match st.2.construct st.1 v with
    | (some e, d') => (some e, (st.1 + 1, d'))
    | (none, d') =>
      match d'.destroy i with
      | (r, d'') => (r, (st.1 + 1, d''))

/-- The member `void erase(size_t first, size_t last)`. -/
def erase_range (first last : Nat) (s : Vector α) : Res α :=
  if first ≥ s.size_ ∨ last > s.size_ ∨ first ≥ last then (some Failure.out_of_range, s)
  else
    let count := last - first
    match forUp erase_range_destroy (last - first) first s.data_ with
    | (some e, d) => (some e, { s with data_ := d })
    | (none, d) =>
      match forUp erase_range_body (s.size_ - last) last (first, d) with
      | (some e, st) => (some e, { s with data_ := st.2 })
      | (none, st) => (none, { s with data_ := st.2, size_ := s.size_ - count })

/-- Body of the loop of `clear`: `destroy(data_ + i)`. -/
def clear_body (i : Nat) (d : Buf α) : Option Failure × Buf α :=
  d.destroy i

/-- The member `void clear()`. -/
def clear (s : Vector α) : Res α :=
  match forUp clear_body s.size_ 0 s.data_ with
  | (some e, d) => (some e, { s with data_ := d })
  | (none, d) => (none, { s with data_ := d, size_ := 0 })

/-- The sequence held by the container: the values of the live slots among the
indices `0 .. size_ - 1`, in index order. -/
def content (s : Vector α) : List α := (s.data_.take s.size_).reduceOption

/-- Whether slot `i` of the buffer holds a live value. -/
def live (s : Vector α) (i : Nat) : Bool :=
  match s.data_[i]? with
  | some (some _) => true
  | _ => false

/-- A valid container state: the block has `capacity_` slots, `size_` does not
exceed `capacity_`, the slots below `size_` are live and the others are
uninitialised. -/
def WF (s : Vector α) : Prop :=
  s.data_.length = s.capacity_ ∧ s.size_ ≤ s.capacity_ ∧
    ∀ i, i < s.capacity_ → (s.live i = true ↔ i < s.size_)

instance (s : Vector α) : Decidable (WF s) := by
  unfold WF; infer_instance

end Vector

open Vector

/-- The block of `cap` slots whose slot `j` holds `f j`. -/
def bufOf {α : Type} (cap : Nat) (f : Nat → Option α) : Buf α := (List.range cap).map f

/-- The state of capacity `cap` that holds the sequence `xs`: `size_` is the
length of `xs`, the first slots of the block hold its elements and the others
are uninitialised. -/
def stateOf {α : Type} (cap : Nat) (xs : List α) : Vector α :=
  { size_ := xs.length, capacity_ := cap, data_ := bufOf cap (fun j => xs[j]?) }

/-- What a memory step can signal: nothing, or undefined behaviour. -/
def MemOutcome (o : Option Failure) : Prop := o = none ∨ o = some Failure.undefined

/-- The demo state after `insert(1, 15)`: `[10, 15, 20, 30]` in a block of four
slots. -/
def demo4 : Vector Int :=
  { size_ := 4, capacity_ := 4, data_ := [some 10, some 15, some 20, some 30] }

/-- The demo state before the range erase: `[10, 15, 30, 40, 50]` in a block of
eight slots. -/
def demo5 : Vector Int :=
  { size_ := 5, capacity_ := 8,
    data_ := [some 10, some 15, some 30, some 40, some 50, none, none, none] }

/-- The calls `push_back(x)` for the elements `x` of a list, in order; the run
stops at the first call that does not return normally. -/
def push_all {α : Type} (A : Nat → Bool) : List α → Vector α → Res α
  | [], s => (none, s)
  | x :: xs, s =>
    match push_back A (Arg.val x) s with
    | (none, s') => push_all A xs s'
    | (some e, s') => (some e, s')

/-- The demo state after the three appends of `main`: `[10, 20, 30]` in a block
of four slots. -/
def demo3 : Vector Int :=
  { size_ := 3, capacity_ := 4, data_ := [some 10, some 20, some 30, none] }

/-- The statement `vec[index] = value`: the element write through the reference
that `operator[]` returns. -/
def Vector.subscript_assign {α : Type} (index : Nat) (value : α) (s : Vector α) : Res α :=
  match subscript index s with
  | (Except.error e, s1) => (some e, s1)
  | (Except.ok _, s1) => (none, { s1 with data_ := s1.data_.set index (some value) })

/-- The iterator `begin()`: the pointer `data_`, as an offset from `data_`. -/
def Vector.begin {α : Type} (_s : Vector α) : Int := 0

/-- The iterator `end()`: the pointer `data_ + size_`, as an offset from `data_`. -/
def Vector.end_ {α : Type} (s : Vector α) : Int := (s.size_ : Int)

/-- The iterator `rbegin()`: the pointer `data_ + size_ - 1`, as an offset from
`data_`. -/
def Vector.rbegin {α : Type} (s : Vector α) : Int := (s.size_ : Int) - 1

/-- The iterator `rend()`: the pointer `data_ - 1`, as an offset from `data_`. -/
def Vector.rend {α : Type} (_s : Vector α) : Int := -1

/-- The value read by `*it` for a pointer `it` at offset `it` from `data_`;
`none` when `it` does not point to a live slot of the block. -/
def Vector.deref {α : Type} (s : Vector α) (it : Int) : Option α :=
  if 0 ≤ it then s.data_.read it.toNat else none

/-- The loop `for (auto it = first; it != last; ++it) visit(*it);` on the
pointers the class returns as iterators, `++it` being the increment of `T*`.
The result is `none` when the loop is still running after `fuel` tests of
`it != last`; otherwise it is what the loop signalled and the values it
visited, in order. -/
def Vector.traverse {α : Type} (s : Vector α) (last : Int) :
    Nat → Int → Option (Option Failure × List α)
  | 0, _ => none
  | fuel + 1, it =>
    if it = last then some (none, [])
    else
      match s.deref it with
      | none => some (some Failure.undefined, [])
      | some v =>
        match Vector.traverse s last fuel (it + 1) with
        | none => none
        | some (r, vs) => some (r, v :: vs)

/-! The same class with its buffers in a shared store.

The definitions above give every container its buffer as a value, so two
containers can never share one.  To speak about sharing, the definitions below
translate the member functions once more, on objects that hold a pointer
into a store of blocks: `data_ + i` is slot `i` of the block `data_` points to.
-/

/-- A pointer to a block of the store; `none` is the null pointer. -/
abbrev Ptr := Option Nat

/-- The free store: the blocks handed out so far, by address; the entry of a
block that has been released is `none`. -/
abbrev Heap (α : Type) := List (Option (Buf α))

/-- The members of a `Vector<T>` object whose buffer lives in the store. -/
structure Obj where
  size_ : Nat
  capacity_ : Nat
  data_ : Ptr
  deriving DecidableEq, Repr

/-- The block a pointer points to: the null pointer points to no slot at all, a
released or unknown address to no block. -/
def Heap.block {α : Type} (m : Heap α) (p : Ptr) : Option (Buf α) :=
  match p with
  | none => some []
  | some a =>
    match m[a]? with
    | some (some b) => some b
    | _ => none

/-- A memory step `f` carried out on the block that `p` points to. -/
def Heap.onBlock {α : Type} (m : Heap α) (p : Ptr) (f : Buf α → Option Failure × Buf α) :
    Option Failure × Heap α :=
  match p with
  | none => ((f []).1, m)
  | some a =>
    match m[a]? with
    | some (some b) => ((f b).1, m.set a (some (f b).2))
    | _ => (some Failure.undefined, m)

/-- The step `construct(allocator_, p + i, v)` in the store. -/
def Heap.construct {α : Type} (m : Heap α) (p : Ptr) (i : Nat) (v : α) :
    Option Failure × Heap α :=
  Heap.onBlock m p (fun b => b.construct i v)

/-- The step `destroy(allocator_, p + i)` in the store. -/
def Heap.destroy {α : Type} (m : Heap α) (p : Ptr) (i : Nat) : Option Failure × Heap α :=
  Heap.onBlock m p (fun b => b.destroy i)

/-- The value read by `p[i]` in the store. -/
def Heap.read {α : Type} (m : Heap α) (p : Ptr) (i : Nat) : Option α :=
  match Heap.block m p with
  | some b => b.read i
  | none => none

/-- What a parameter of type `const T&` refers to, in the store: an object that
is in no block, which holds `v` all along, or the slot `i` of the block that
`p` points to. -/
inductive Ref (α : Type) where
  | val (v : α)
  | slot (p : Ptr) (i : Nat)
  deriving DecidableEq, Repr

/-- The value read through a reference, in the store as it is at that moment;
`none` when the reference does not refer to a live element. -/
def Heap.readRef {α : Type} (m : Heap α) (r : Ref α) : Option α :=
  match r with
  | Ref.val v => some v
  | Ref.slot p i => Heap.read m p i

/-- The assignment `p[i] = v` to a live element in the store. -/
def Heap.assign {α : Type} (m : Heap α) (p : Ptr) (i : Nat) (v : α) :
    Option Failure × Heap α :=
  Heap.onBlock m p (fun b =>
    match b.read i with
    | some _ => (none, b.set i (some v))
    | none => (some Failure.undefined, b))

/-- The call `allocator_.allocate(n)` in the store: when the request is granted,
a new block of `n` uninitialised slots at an address not used before. -/
def Heap.allocate {α : Type} (A : Nat → Bool) (n : Nat) (m : Heap α) : Option (Heap α × Ptr) :=
  if A n then some (m ++ [some (List.replicate n none)], some m.length) else none

/-- The call `allocator_.deallocate(p, n)` in the store. -/
def Heap.deallocate {α : Type} (m : Heap α) (p : Ptr) : Heap α :=
  match p with
  | none => m
  | some a => m.set a none

/-- The container that the object `o` is in the store `m`. -/
def Heap.view {α : Type} (m : Heap α) (o : Obj) : Vector α :=
  { size_ := o.size_, capacity_ := o.capacity_, data_ := (Heap.block m o.data_).getD [] }

/-- Body of the loop of the copy constructor, in the store. -/
def Heap.copy_body {α : Type} (src dst : Ptr) (i : Nat) (m : Heap α) : Option Failure × Heap α :=
  match Heap.read m src i with
  | none => (some Failure.undefined, m)
  | some v => Heap.construct m dst i v

/-- The copy constructor `Vector(const Vector &other)`, in the store. -/
def Heap.copy {α : Type} (A : Nat → Bool) (m : Heap α) (other : Obj) :
    Except Failure (Heap α × Obj) :=
  match Heap.allocate A other.capacity_ m with
  | none => Except.error Failure.bad_alloc
  | some (m1, d) =>
    match forUp (Heap.copy_body other.data_ d) other.size_ 0 m1 with
    | (none, m2) =>
      Except.ok (m2, { size_ := other.size_, capacity_ := other.capacity_, data_ := d })
    | (some e, _) => Except.error e

/-- Body of the loop of `reserve`, in the store. -/
def Heap.reserve_body {α : Type} (data_ new_data : Ptr) (i : Nat) (m : Heap α) :
    Option Failure × Heap α :=
  match Heap.read m data_ i with
  | none => (some Failure.undefined, m)
  | some v =>
    match Heap.construct m new_data i v with
    | (some e, m1) => (some e, m1)
    | (none, m1) => Heap.destroy m1 data_ i

/-- The member `void reserve(size_t cap)`, in the store. -/
def Heap.reserve {α : Type} (A : Nat → Bool) (cap : Nat) (m : Heap α) (o : Obj) :
    Option Failure × Heap α × Obj :=
  if cap > o.capacity_ then
    match Heap.allocate A cap m with
    | none => (some Failure.bad_alloc, m, o)
    | some (m1, new_data) =>
      match forUp (Heap.reserve_body o.data_ new_data) o.size_ 0 m1 with
      | (some e, m2) => (some e, m2, o)
      | (none, m2) =>
        (none, Heap.deallocate m2 o.data_, { o with data_ := new_data, capacity_ := cap })
  else (none, m, o)

/-- Body of the loop of `insert`, in the store. -/
def Heap.insert_body {α : Type} (data_ : Ptr) (i : Nat) (m : Heap α) : Option Failure × Heap α :=
  match Heap.read m data_ (i - 1) with
  | none => (some Failure.undefined, m)
  | some v =>
    match Heap.construct m data_ i v with
    | (some e, m1) => (some e, m1)
    | (none, m1) => Heap.destroy m1 data_ (i - 1)

/-- The member `void insert(size_t index, const T& value)`, in the store.  The
reference `value` is read where line 96 reads it, in the store as the growth
step and the shift loop have left it. -/
def Heap.insert {α : Type} (A : Nat → Bool) (index : Nat) (value : Ref α) (m : Heap α)
    (o : Obj) : Option Failure × Heap α × Obj :=
  if index > o.size_ then (some Failure.out_of_range, m, o)
  else
    match (if o.size_ = o.capacity_ then Heap.reserve A (grown o.capacity_) m o
      else (none, m, o)) with
    | (some e, m1, o1) => (some e, m1, o1)
    | (none, m1, o1) =>
      match forDown (Heap.insert_body o1.data_) (o1.size_ - index) o1.size_ m1 with
      | (some e, m2) => (some e, m2, o1)
      | (none, m2) =>
        match Heap.readRef m2 value with
        | none => (some Failure.undefined, m2, o1)
        | some v =>
          match Heap.construct m2 o1.data_ index v with
          | (some e, m3) => (some e, m3, o1)
          | (none, m3) => (none, m3, { o1 with size_ := o1.size_ + 1 })

/-- The member `void push_back(const T& v)`, in the store.  The reference `v` is
read where line 105 reads it, in the store as the growth step has left it. -/
def Heap.push_back {α : Type} (A : Nat → Bool) (v : Ref α) (m : Heap α) (o : Obj) :
    Option Failure × Heap α × Obj :=
  match (if o.size_ = o.capacity_ then Heap.reserve A (grown o.capacity_) m o
    else (none, m, o)) with
  | (some e, m1, o1) => (some e, m1, o1)
  | (none, m1, o1) =>
    match Heap.readRef m1 v with
    | none => (some Failure.undefined, m1, o1)
    | some x =>
      match Heap.construct m1 o1.data_ o1.size_ x with
      | (some e, m2) => (some e, m2, o1)
      | (none, m2) => (none, m2, { o1 with size_ := o1.size_ + 1 })

/-- The member `void pop_back()`, in the store. -/
def Heap.pop_back {α : Type} (m : Heap α) (o : Obj) : Option Failure × Heap α × Obj :=
  if o.size_ > 0 then
    match Heap.destroy m o.data_ (o.size_ - 1) with
    | (some e, m1) => (some e, m1, o)
    | (none, m1) => (none, m1, { o with size_ := o.size_ - 1 })
  else (none, m, o)

/-- Body of the loop of `erase(size_t)`, in the store. -/
def Heap.erase_body {α : Type} (data_ : Ptr) (i : Nat) (m : Heap α) : Option Failure × Heap α :=
  match Heap.read m data_ (i + 1) with
  | none => (some Failure.undefined, m)
  | some v =>
    match Heap.construct m data_ i v with
    | (some e, m1) => (some e, m1)
    | (none, m1) => Heap.destroy m1 data_ (i + 1)

/-- The member `void erase(size_t index)`, in the store. -/
def Heap.erase {α : Type} (index : Nat) (m : Heap α) (o : Obj) : Option Failure × Heap α × Obj :=
  if index ≥ o.size_ then (some Failure.out_of_range, m, o)
  else
    match Heap.destroy m o.data_ index with
    | (some e, m1) => (some e, m1, o)
    | (none, m1) =>
      match forUp (Heap.erase_body o.data_) (o.size_ - 1 - index) index m1 with
      | (some e, m2) => (some e, m2, o)
      | (none, m2) => (none, m2, { o with size_ := o.size_ - 1 })

/-- Body of the second loop of `erase(size_t, size_t)`, in the store, on the
pair (`first`, store). -/
def Heap.erase_range_body {α : Type} (data_ : Ptr) (i : Nat) (st : Nat × Heap α) :
    Option Failure × (Nat × Heap α) :=
  match Heap.read st.2 data_ i with
  | none => (some Failure.undefined, st)
  | some v =>
    match Heap.construct st.2 data_ st.1 v with
    | (some e, m1) => (some e, (st.1 + 1, m1))
    | (none, m1) =>
      match Heap.destroy m1 data_ i with
      | (r, m2) => (r, (st.1 + 1, m2))

/-- The member `void erase(size_t first, size_t last)`, in the store. -/
def Heap.erase_range {α : Type} (first last : Nat) (m : Heap α) (o : Obj) :
    Option Failure × Heap α × Obj :=
  if first ≥ o.size_ ∨ last > o.size_ ∨ first ≥ last then (some Failure.out_of_range, m, o)
  else
    let count := last - first
    match forUp (fun i m' => Heap.destroy m' o.data_ i) (last - first) first m with
    | (some e, m1) => (some e, m1, o)
    | (none, m1) =>
      match forUp (Heap.erase_range_body o.data_) (o.size_ - last) last (first, m1) with
      | (some e, st) => (some e, st.2, o)
      | (none, st) => (none, st.2, { o with size_ := o.size_ - count })

/-- The member `void clear()`, in the store. -/
def Heap.clear {α : Type} (m : Heap α) (o : Obj) : Option Failure × Heap α × Obj :=
  match forUp (fun i m' => Heap.destroy m' o.data_ i) o.size_ 0 m with
  | (some e, m1) => (some e, m1, o)
  | (none, m1) => (none, m1, { o with size_ := 0 })

/-- The statement `vec[index] = value`, in the store. -/
def Heap.subscript_assign {α : Type} (index : Nat) (value : α) (m : Heap α) (o : Obj) :
    Option Failure × Heap α × Obj :=
  if index ≥ o.size_ then (some Failure.out_of_range, m, o)
  else
    match Heap.assign m o.data_ index value with
    | (r, m1) => (r, m1, o)

/-- The copy assignment `*this = other`.  The class declares none, so the
language generates it: it assigns the members `size_`, `capacity_`, `data_` one
by one and touches no block. -/
def Heap.copy_assign {α : Type} (m : Heap α) (_self other : Obj) : Heap α × Obj :=
  (m, { size_ := other.size_, capacity_ := other.capacity_, data_ := other.data_ })

/-- The store `m'` has kept what the store `m` had at address `a`, and every
address of `m` is an address of `m'`. -/
def Heap.Keeps {α : Type} (a : Nat) (m m' : Heap α) : Prop :=
  m.length ≤ m'.length ∧ m'[a]? = m[a]?

/-- A store with one block, holding `[10, 20, 30]` in four slots. -/
def demoHeap : Heap Int := [some [some 10, some 20, some 30, none]]

/-- The object that owns the block of `demoHeap`. -/
def demoObj : Obj := { size_ := 3, capacity_ := 4, data_ := some 0 }

/-- The store after the copy constructor has copied `demoObj` in `demoHeap`. -/
def demoHeap2 : Heap Int :=
  [some [some 10, some 20, some 30, none], some [some 10, some 20, some 30, none]]

/-- The copy of `demoObj` that the copy constructor builds in `demoHeap`. -/
def demoCopy : Obj := { size_ := 3, capacity_ := 4, data_ := some 1 }

/-- A store with one full block, holding `[10, 15, 20, 30]` in four slots. -/
def demoHeap4 : Heap Int := [some [some 10, some 15, some 20, some 30]]

/-- The object that owns the block of `demoHeap4`. -/
def demoObj4 : Obj := { size_ := 4, capacity_ := 4, data_ := some 0 }

/-- A default-constructed object: no block, `size_` and `capacity_` zero. -/
def demoNew : Obj := { size_ := 0, capacity_ := 0, data_ := none }

/-! Blocks of slots -/

theorem bufOf_length {α : Type} (cap : Nat) (f : Nat → Option α) :
    (bufOf cap f).length = cap := by
  simp [bufOf]

theorem bufOf_getElem? {α : Type} (cap : Nat) (f : Nat → Option α) (j : Nat) :
    (bufOf cap f)[j]? = if j < cap then some (f j) else none := by
  unfold bufOf
  by_cases h : j < cap
  · simp [h, List.getElem?_range]
  · simp [h]
    omega

theorem bufOf_congr {α : Type} {cap : Nat} {f g : Nat → Option α}
    (h : ∀ j, j < cap → f j = g j) : bufOf cap f = bufOf cap g := by
  apply List.ext_getElem?
  intro j
  rw [bufOf_getElem?, bufOf_getElem?]
  by_cases hj : j < cap
  · simp [hj, h j hj]
  · simp [hj]

theorem bufOf_set {α : Type} (cap : Nat) (f : Nat → Option α) (i : Nat) (x : Option α) :
    (bufOf cap f).set i x = bufOf cap (Function.update f i x) := by
  apply List.ext_getElem?
  intro j
  rw [List.getElem?_set, bufOf_getElem?, bufOf_getElem?, bufOf_length]
  by_cases hij : i = j
  · subst hij
    by_cases hi : i < cap <;> simp [hi]
  · have hji : j ≠ i := fun h => hij h.symm
    simp [hij, Function.update_noteq hji]

theorem read_bufOf {α : Type} {cap : Nat} {f : Nat → Option α} {i : Nat} (hi : i < cap) :
    (bufOf cap f).read i = f i := by
  unfold Buf.read
  rw [bufOf_getElem?]
  simp only [hi, if_true]
  cases f i <;> rfl

theorem construct_bufOf {α : Type} {cap : Nat} {f : Nat → Option α} {i : Nat} (v : α)
    (hi : i < cap) (hf : f i = none) :
    (bufOf cap f).construct i v = (none, bufOf cap (Function.update f i (some v))) := by
  unfold Buf.construct
  rw [bufOf_getElem?]
  simp only [hi, if_true, hf, bufOf_set]

theorem destroy_bufOf {α : Type} {cap : Nat} {f : Nat → Option α} {i : Nat} {x : α}
    (hi : i < cap) (hf : f i = some x) :
    (bufOf cap f).destroy i = (none, bufOf cap (Function.update f i none)) := by
  unfold Buf.destroy
  rw [bufOf_getElem?]
  simp only [hi, if_true, hf, bufOf_set]

/-! Valid states -/

theorem reduceOption_of_all_some {α : Type} :
    ∀ (l : List (Option α)), (∀ x, x ∈ l → x.isSome = true) → l = l.reduceOption.map some
  | [], _ => by simp
  | none :: l, h => by
    have := h none (by simp)
    simp at this
  | some a :: l, h => by
    have ih := reduceOption_of_all_some l (fun x hx => h x (List.mem_cons_of_mem _ hx))
    simp only [List.reduceOption_cons_of_some, List.map_cons]
    rw [← ih]

theorem reduceOption_map_some {α : Type} :
    ∀ (xs : List α), (xs.map some).reduceOption = xs
  | [] => rfl
  | x :: xs => by
    rw [List.map_cons, List.reduceOption_cons_of_some, reduceOption_map_some xs]

theorem take_bufOf {α : Type} {cap n : Nat} (f : Nat → Option α) (h : n ≤ cap) :
    (bufOf cap f).take n = bufOf n f := by
  apply List.ext_getElem?
  intro j
  rw [List.getElem?_take, bufOf_getElem?, bufOf_getElem?]
  by_cases hj : j < n
  · have : j < cap := by omega
    simp [hj, this]
  · simp [hj]

theorem bufOf_getElem?_eq_map {α : Type} (xs : List α) :
    bufOf xs.length (fun j => xs[j]?) = xs.map some := by
  apply List.ext_getElem?
  intro j
  rw [bufOf_getElem?, List.getElem?_map]
  by_cases hj : j < xs.length
  · simp [hj, List.getElem?_eq_getElem hj]
  · have : xs.length ≤ j := by omega
    simp [hj, List.getElem?_eq_none this]

theorem content_stateOf {α : Type} {cap : Nat} {xs : List α} (h : xs.length ≤ cap) :
    (stateOf cap xs).content = xs := by
  unfold content stateOf
  simp only
  rw [take_bufOf _ h, bufOf_getElem?_eq_map]
  exact reduceOption_map_some xs

theorem live_stateOf {α : Type} {cap : Nat} {xs : List α} {i : Nat} (hi : i < cap) :
    (stateOf cap xs).live i = true ↔ i < xs.length := by
  unfold live stateOf
  simp only [bufOf_getElem?, hi, if_true]
  by_cases h : i < xs.length
  · simp [h, List.getElem?_eq_getElem h]
  · have : xs.length ≤ i := by omega
    simp [h, List.getElem?_eq_none this]

theorem wf_stateOf {α : Type} {cap : Nat} {xs : List α} (h : xs.length ≤ cap) :
    (stateOf cap xs).WF := by
  refine ⟨?_, ?_, ?_⟩
  · simp [stateOf, bufOf_length]
  · simpa [stateOf] using h
  · intro i hi
    exact live_stateOf hi

theorem Vector.WF.eq_stateOf {α : Type} {s : Vector α} (h : s.WF) :
    s = stateOf s.capacity_ s.content ∧ s.content.length = s.size_ := by
  obtain ⟨hlen, hle, hlive⟩ := h
  have hall : ∀ x, x ∈ s.data_.take s.size_ → x.isSome = true := by
    intro x hx
    obtain ⟨i, hi, rfl⟩ := List.getElem_of_mem hx
    have hi' : i < s.size_ := by
      have := List.length_take_le s.size_ s.data_
      omega
    have hl := (hlive i (by omega)).2 hi'
    rw [List.getElem_take]
    unfold live at hl
    have hd : i < s.data_.length := by omega
    rw [List.getElem?_eq_getElem hd] at hl
    cases hx : s.data_[i] with
    | none => rw [hx] at hl; simp at hl
    | some v => rfl
  have htake := reduceOption_of_all_some _ hall
  have hclen : s.content.length = s.size_ := by
    have h1 : (s.data_.take s.size_).length = (s.content.map some).length := by
      unfold content
      rw [← htake]
    rw [List.length_map, List.length_take] at h1
    omega
  refine ⟨?_, hclen⟩
  cases s with
  | mk sz cap d =>
    simp only at hlen hle hlive htake hclen
    unfold stateOf
    simp only [hclen, Vector.mk.injEq, true_and]
    apply List.ext_getElem?
    intro j
    rw [bufOf_getElem?]
    by_cases hj : j < cap
    · simp only [hj, if_true]
      by_cases hjs : j < sz
      · have h2 : (d.take sz)[j]? = ((content ⟨sz, cap, d⟩).map some)[j]? := by
          unfold content
          simp only
          rw [← htake]
        rw [List.getElem?_take, if_pos hjs, List.getElem?_map] at h2
        rw [h2]
        have hjc : j < (content ⟨sz, cap, d⟩).length := by omega
        simp [List.getElem?_eq_getElem hjc]
      · have hnl := (hlive j hj).not.2 hjs
        have hjc : (content ⟨sz, cap, d⟩).length ≤ j := by omega
        rw [List.getElem?_eq_none hjc]
        have hd : j < d.length := by omega
        unfold live at hnl
        simp only at hnl
        rw [List.getElem?_eq_getElem hd] at hnl ⊢
        cases hx : d[j] with
        | none => rfl
        | some v => rw [hx] at hnl; simp at hnl
    · simp only [hj, if_false]
      apply List.getElem?_eq_none
      omega

theorem Vector.WF.content_length {α : Type} {s : Vector α} (h : s.WF) :
    s.content.length = s.size_ := h.eq_stateOf.2

/-! The loops on valid blocks -/

theorem replicate_none_eq_bufOf {α : Type} (n : Nat) :
    (List.replicate n none : Buf α) = bufOf n (fun _ => none) := by
  apply List.ext_getElem?
  intro j
  rw [bufOf_getElem?, List.getElem?_replicate]

theorem reserve_loop {α : Type} (c c' : Nat) :
    ∀ (n i : Nat) (f g : Nat → Option α), i + n ≤ c → i + n ≤ c' →
      (∀ j, i ≤ j → j < i + n → (f j).isSome = true ∧ g j = none) →
      forUp reserve_body n i (bufOf c f, bufOf c' g) =
        (none, (bufOf c (fun j => if i ≤ j ∧ j < i + n then none else f j),
                bufOf c' (fun j => if i ≤ j ∧ j < i + n then f j else g j)))
  | 0, i, f, g, _, _, _ => by
    have h1 : ∀ j, ¬ (i ≤ j ∧ j < i + 0) := by intro j; omega
    simp only [forUp, h1, if_false]
  | n + 1, i, f, g, hc, hc', h => by
    obtain ⟨hs, hg⟩ := h i (le_refl i) (by omega)
    obtain ⟨v, hv⟩ := Option.isSome_iff_exists.1 hs
    have hr : (bufOf c f).read i = some v := by rw [read_bufOf (by omega), hv]
    have ih := reserve_loop c c' n (i + 1) (Function.update f i none)
      (Function.update g i (some v)) (by omega) (by omega) (by
        intro j hj1 hj2
        have hne : j ≠ i := by omega
        rw [Function.update_noteq hne, Function.update_noteq hne]
        exact h j (by omega) (by omega))
    simp only [forUp, reserve_body, hr, construct_bufOf v (show i < c' by omega) hg,
      destroy_bufOf (show i < c by omega) hv, ih]
    refine Prod.ext rfl (Prod.ext ?_ ?_)
    · apply bufOf_congr
      intro j _
      simp only [Function.update_apply]
      by_cases hji : j = i
      · subst hji
        simp
      · have e1 : (i + 1 ≤ j ∧ j < i + 1 + n) ↔ (i ≤ j ∧ j < i + (n + 1)) := by omega
        simp only [hji, if_false, e1]
    · apply bufOf_congr
      intro j _
      simp only [Function.update_apply]
      by_cases hji : j = i
      · subst hji
        simp [hv]
      · have e1 : (i + 1 ≤ j ∧ j < i + 1 + n) ↔ (i ≤ j ∧ j < i + (n + 1)) := by omega
        simp only [hji, if_false, e1]

theorem reserve_stateOf {α : Type} (A : Nat → Bool) {c cap : Nat} (xs : List α)
    (hlen : xs.length ≤ c) (hcap : c < cap) (hA : A cap = true) :
    reserve A cap (stateOf c xs) = (none, stateOf cap xs) := by
  have hl := reserve_loop c cap xs.length 0 (fun j => xs[j]?) (fun _ => (none : Option α))
    (by omega) (by omega) (by
      intro j _ hj
      have hj' : j < xs.length := by omega
      simp [List.getElem?_eq_getElem hj'])
  unfold reserve stateOf allocate
  simp only [gt_iff_lt, hcap, if_true, hA, replicate_none_eq_bufOf, hl]
  refine Prod.ext rfl ?_
  simp only [Vector.mk.injEq, true_and]
  apply bufOf_congr
  intro j _
  by_cases hj : j < xs.length
  · simp [hj]
  · have : xs.length ≤ j := by omega
    simp [hj, List.getElem?_eq_none this]

theorem insert_loop {α : Type} (c : Nat) :
    ∀ (n i : Nat) (f : Nat → Option α), n ≤ i → i < c → f i = none →
      (∀ j, i - n ≤ j → j < i → (f j).isSome = true) →
      forDown insert_body n i (bufOf c f) =
        (none, bufOf c (fun j => if i - n < j ∧ j ≤ i then f (j - 1)
                                 else if j = i - n then none else f j))
  | 0, i, f, _, _, hf, _ => by
    simp only [forDown]
    refine Prod.ext rfl ?_
    apply bufOf_congr
    intro j _
    have h1 : ¬ (i - 0 < j ∧ j ≤ i) := by omega
    by_cases hji : j = i
    · subst hji
      simp [hf]
    · have : ¬ (j = i - 0) := by omega
      simp only [h1, this, if_false]
  | n + 1, i, f, hn, hc, hf, h => by
    have hs := h (i - 1) (by omega) (by omega)
    obtain ⟨v, hv⟩ := Option.isSome_iff_exists.1 hs
    have hr : (bufOf c f).read (i - 1) = some v := by rw [read_bufOf (by omega), hv]
    have hne : i - 1 ≠ i := by omega
    have hd : Function.update f i (some v) (i - 1) = some v := by
      rw [Function.update_noteq hne, hv]
    have ih := insert_loop c n (i - 1)
      (Function.update (Function.update f i (some v)) (i - 1) none)
      (by omega) (by omega) (by simp) (by
        intro j hj1 hj2
        have h1 : j ≠ i - 1 := by omega
        have h2 : j ≠ i := by omega
        rw [Function.update_noteq h1, Function.update_noteq h2]
        exact h j (by omega) (by omega))
    simp only [forDown, insert_body, hr, construct_bufOf v hc hf,
      destroy_bufOf (show i - 1 < c by omega) hd, ih]
    refine Prod.ext rfl ?_
    apply bufOf_congr
    intro j _
    simp only [Function.update_apply]
    split_ifs <;> first | rfl | omega | (subst_vars; first | rfl | omega | simp_all)

theorem erase_loop {α : Type} (c : Nat) :
    ∀ (n i : Nat) (f : Nat → Option α), i + n < c → f i = none →
      (∀ j, i < j → j ≤ i + n → (f j).isSome = true) →
      forUp erase_body n i (bufOf c f) =
        (none, bufOf c (fun j => if i ≤ j ∧ j < i + n then f (j + 1)
                                 else if j = i + n then none else f j))
  | 0, i, f, _, hf, _ => by
    simp only [forUp]
    refine Prod.ext rfl ?_
    apply bufOf_congr
    intro j _
    have h1 : ¬ (i ≤ j ∧ j < i + 0) := by omega
    by_cases hji : j = i
    · subst hji
      simp [hf]
    · have : ¬ (j = i + 0) := by omega
      simp only [h1, this, if_false]
  | n + 1, i, f, hc, hf, h => by
    have hs := h (i + 1) (by omega) (by omega)
    obtain ⟨v, hv⟩ := Option.isSome_iff_exists.1 hs
    have hr : (bufOf c f).read (i + 1) = some v := by rw [read_bufOf (by omega), hv]
    have hne : i + 1 ≠ i := by omega
    have hd : Function.update f i (some v) (i + 1) = some v := by
      rw [Function.update_noteq hne, hv]
    have ih := erase_loop c n (i + 1)
      (Function.update (Function.update f i (some v)) (i + 1) none)
      (by omega) (by simp) (by
        intro j hj1 hj2
        have h1 : j ≠ i + 1 := by omega
        have h2 : j ≠ i := by omega
        rw [Function.update_noteq h1, Function.update_noteq h2]
        exact h j (by omega) (by omega))
    simp only [forUp, erase_body, hr, construct_bufOf v (show i < c by omega) hf,
      destroy_bufOf (show i + 1 < c by omega) hd, ih]
    refine Prod.ext rfl ?_
    apply bufOf_congr
    intro j _
    simp only [Function.update_apply]
    split_ifs <;> first | rfl | omega | (subst_vars; first | rfl | omega | simp_all)

theorem destroy_loop {α : Type} (c : Nat) :
    ∀ (n i : Nat) (f : Nat → Option α), i + n ≤ c →
      (∀ j, i ≤ j → j < i + n → (f j).isSome = true) →
      forUp (fun (k : Nat) (d : Buf α) => d.destroy k) n i (bufOf c f) =
        (none, bufOf c (fun j => if i ≤ j ∧ j < i + n then none else f j))
  | 0, i, f, _, _ => by
    have h1 : ∀ j, ¬ (i ≤ j ∧ j < i + 0) := by intro j; omega
    simp only [forUp, h1, if_false]
  | n + 1, i, f, hc, h => by
    obtain ⟨v, hv⟩ := Option.isSome_iff_exists.1 (h i (le_refl i) (by omega))
    have ih := destroy_loop c n (i + 1) (Function.update f i none) (by omega) (by
        intro j hj1 hj2
        have hne : j ≠ i := by omega
        rw [Function.update_noteq hne]
        exact h j (by omega) (by omega))
    simp only [forUp, destroy_bufOf (show i < c by omega) hv, ih]
    refine Prod.ext rfl ?_
    apply bufOf_congr
    intro j _
    simp only [Function.update_apply]
    by_cases hji : j = i
    · subst hji
      simp
    · have e1 : (i + 1 ≤ j ∧ j < i + 1 + n) ↔ (i ≤ j ∧ j < i + (n + 1)) := by omega
      simp only [hji, if_false, e1]

theorem erase_range_loop {α : Type} (c : Nat) :
    ∀ (n fst i : Nat) (f : Nat → Option α), fst < i → i + n ≤ c →
      (∀ j, fst ≤ j → j < i → f j = none) →
      (∀ j, i ≤ j → j < i + n → (f j).isSome = true) →
      forUp erase_range_body n i (fst, bufOf c f) =
        (none, (fst + n, bufOf c (fun j => if fst ≤ j ∧ j < fst + n then f (j + (i - fst))
                                          else if i ≤ j ∧ j < i + n then none else f j)))
  | 0, fst, i, f, _, _, _, _ => by
    have h1 : ∀ j, ¬ (fst ≤ j ∧ j < fst) := by intro j; omega
    have h2 : ∀ j, ¬ (i ≤ j ∧ j < i) := by intro j; omega
    simp only [forUp, Nat.add_zero, h1, h2, if_false]
  | n + 1, fst, i, f, hlt, hc, hnone, hsome => by
    obtain ⟨v, hv⟩ := Option.isSome_iff_exists.1 (hsome i (le_refl i) (by omega))
    have hr : (bufOf c f).read i = some v := by rw [read_bufOf (by omega), hv]
    have hf : f fst = none := hnone fst (le_refl fst) hlt
    have hne : i ≠ fst := by omega
    have hd : Function.update f fst (some v) i = some v := by
      rw [Function.update_noteq hne, hv]
    have ih := erase_range_loop c n (fst + 1) (i + 1)
      (Function.update (Function.update f fst (some v)) i none)
      (by omega) (by omega) (by
        intro j hj1 hj2
        by_cases hji : j = i
        · rw [hji, Function.update_same]
        · have h2 : j ≠ fst := by omega
          rw [Function.update_noteq hji, Function.update_noteq h2]
          exact hnone j (by omega) (by omega)) (by
        intro j hj1 hj2
        have h1 : j ≠ i := by omega
        have h2 : j ≠ fst := by omega
        rw [Function.update_noteq h1, Function.update_noteq h2]
        exact hsome j (by omega) (by omega))
    simp only [forUp, erase_range_body, hr, construct_bufOf v (show fst < c by omega) hf,
      destroy_bufOf (show i < c by omega) hd, ih]
    refine Prod.ext rfl (Prod.ext (by simp only; omega) ?_)
    apply bufOf_congr
    intro j _
    simp only [Function.update_apply]
    have e1 : i + 1 - (fst + 1) = i - fst := by omega
    rw [e1]
    by_cases hjf : j = fst
    · have e2 : fst + (i - fst) = i := by omega
      rw [hjf, if_neg (by omega), if_neg (by omega), if_neg (by omega), if_pos rfl,
        if_pos (by omega), e2, hv]
    · split_ifs <;> first | rfl | omega

/-! The sequences the operations produce -/

theorem getElem?_insert {α : Type} (xs : List α) (index : Nat) (v : α) (j : Nat)
    (h : index ≤ xs.length) :
    (xs.take index ++ [v] ++ xs.drop index)[j]? =
      if j < index then xs[j]? else if j = index then some v else xs[j - 1]? := by
  have hl : (xs.take index).length = index := by
    rw [List.length_take]
    omega
  rw [List.append_assoc]
  by_cases h1 : j < index
  · rw [if_pos h1, List.getElem?_append_left (by omega), List.getElem?_take_of_lt h1]
  · rw [if_neg h1, List.getElem?_append_right (by omega), hl]
    by_cases h2 : j = index
    · subst h2
      simp
    · rw [if_neg h2]
      obtain ⟨k, hk⟩ : ∃ k, j - index = k + 1 := ⟨j - index - 1, by omega⟩
      rw [hk, List.singleton_append, List.getElem?_cons_succ, List.getElem?_drop]
      congr 1
      omega

theorem length_insert {α : Type} (xs : List α) (index : Nat) (v : α) :
    (xs.take index ++ [v] ++ xs.drop index).length = xs.length + 1 := by
  simp only [List.length_append, List.length_take, List.length_drop, List.length_singleton]
  omega

theorem getElem?_erase_range {α : Type} (xs : List α) (first last : Nat) (j : Nat)
    (h : first ≤ xs.length) :
    (xs.take first ++ xs.drop last)[j]? =
      if j < first then xs[j]? else xs[last + (j - first)]? := by
  have hl : (xs.take first).length = first := by
    rw [List.length_take]
    omega
  by_cases h1 : j < first
  · rw [if_pos h1, List.getElem?_append_left (by omega), List.getElem?_take_of_lt h1]
  · rw [if_neg h1, List.getElem?_append_right (by omega), hl, List.getElem?_drop]

theorem getElem?_none_of_le {α : Type} {xs : List α} {j : Nat} (h : xs.length ≤ j) :
    xs[j]? = none := List.getElem?_eq_none h

theorem getElem?_isSome_of_lt {α : Type} {xs : List α} {j : Nat} (h : j < xs.length) :
    (xs[j]?).isSome = true := by
  rw [List.getElem?_eq_getElem h]
  rfl

/-! The operations on valid states -/

theorem lt_grown (c : Nat) : c < grown c := by
  unfold grown
  split_ifs <;> omega

/-- The growth step shared by `insert` and `push_back`, on a valid state. -/
theorem grow_stateOf {α : Type} (A : Nat → Bool) {c : Nat} (xs : List α)
    (hlen : xs.length ≤ c) (hA : xs.length = c → A (grown c) = true) :
    (if (stateOf c xs).size_ = (stateOf c xs).capacity_
        then reserve A (grown (stateOf c xs).capacity_) (stateOf c xs)
        else (none, stateOf c xs)) =
      (none, stateOf (if xs.length = c then grown c else c) xs) := by
  have h1 : (stateOf c xs).size_ = xs.length := rfl
  have h2 : (stateOf c xs).capacity_ = c := rfl
  rw [h1, h2]
  by_cases h : xs.length = c
  · rw [if_pos h, if_pos h, reserve_stateOf A xs hlen (lt_grown c) (hA h)]
  · rw [if_neg h, if_neg h]

theorem insert_tail {α : Type} {c : Nat} (xs : List α) (index : Nat) (value : α)
    (hlen : xs.length < c) (hi : index ≤ xs.length) :
    (bufOf c (fun j => if xs.length - (xs.length - index) < j ∧ j ≤ xs.length then xs[j - 1]?
        else if j = xs.length - (xs.length - index) then none else xs[j]?)).construct index value =
      (none, bufOf c (fun j => (xs.take index ++ [value] ++ xs.drop index)[j]?)) := by
  have e : xs.length - (xs.length - index) = index := by omega
  rw [e, construct_bufOf value (by omega) (by simp)]
  refine Prod.ext rfl ?_
  apply bufOf_congr
  intro j _
  simp only [Function.update_apply]
  rw [getElem?_insert xs index value j hi]
  by_cases hj : j ≤ xs.length
  · split_ifs <;> first | rfl | omega
  · have h1 : xs[j]? = none := getElem?_none_of_le (by omega)
    have h2 : xs[j - 1]? = none := getElem?_none_of_le (by omega)
    rw [h1, h2]
    split_ifs <;> first | rfl | omega

theorem insert_stateOf {α : Type} (A : Nat → Bool) {c : Nat} (xs : List α) (index : Nat)
    (value : α) (hlen : xs.length ≤ c) (hi : index ≤ xs.length)
    (hA : xs.length = c → A (grown c) = true) :
    insert A index (Arg.val value) (stateOf c xs) =
      (none, stateOf (if xs.length = c then grown c else c)
        (xs.take index ++ [value] ++ xs.drop index)) := by
  have hc1 : xs.length < (if xs.length = c then grown c else c) := by
    have := lt_grown c
    split_ifs <;> omega
  have hgrow := grow_stateOf A xs hlen hA
  generalize (if xs.length = c then grown c else c) = c1 at hc1 hgrow ⊢
  have hloop := insert_loop c1 (xs.length - index) xs.length (fun j => xs[j]?)
    (by omega) hc1 (getElem?_none_of_le (le_refl _))
    (fun j _ hj => getElem?_isSome_of_lt hj)
  have h0 : ¬ (index > (stateOf c xs).size_) := by
    show ¬ (index > xs.length)
    omega
  unfold Vector.insert
  rw [if_neg h0, hgrow]
  show (match forDown insert_body (xs.length - index) xs.length (bufOf c1 (fun j => xs[j]?)) with
    | (some e, d) => (some e, { stateOf c1 xs with data_ := d })
    | (none, d) =>
      match d.construct index value with
      | (some e, d') => (some e, { stateOf c1 xs with data_ := d' })
      | (none, d') => (none, { stateOf c1 xs with data_ := d', size_ := xs.length + 1 })) = _
  rw [hloop]
  simp only [insert_tail xs index value hc1 hi]
  unfold stateOf
  rw [length_insert]

theorem push_back_stateOf {α : Type} (A : Nat → Bool) {c : Nat} (xs : List α) (v : α)
    (hlen : xs.length ≤ c) (hA : xs.length = c → A (grown c) = true) :
    push_back A (Arg.val v) (stateOf c xs) =
      (none, stateOf (if xs.length = c then grown c else c) (xs ++ [v])) := by
  have hc1 : xs.length < (if xs.length = c then grown c else c) := by
    have := lt_grown c
    split_ifs <;> omega
  have hgrow := grow_stateOf A xs hlen hA
  generalize (if xs.length = c then grown c else c) = c1 at hc1 hgrow ⊢
  unfold push_back
  rw [hgrow]
  show (match (bufOf c1 (fun j => xs[j]?)).construct xs.length v with
      | (some e, d') => (some e, { stateOf c1 xs with data_ := d' })
      | (none, d') => (none, { stateOf c1 xs with data_ := d', size_ := xs.length + 1 })) = _
  rw [construct_bufOf v hc1 (getElem?_none_of_le (le_refl _))]
  unfold stateOf
  simp only [List.length_append, List.length_singleton, Prod.mk.injEq, Vector.mk.injEq, true_and]
  apply bufOf_congr
  intro j _
  simp only [Function.update_apply]
  by_cases hj : j = xs.length
  · rw [if_pos hj, hj]
    simp
  · rw [if_neg hj]
    by_cases hj2 : j < xs.length
    · rw [List.getElem?_append_left hj2]
    · rw [getElem?_none_of_le (by omega), getElem?_none_of_le (by simp; omega)]

theorem erase_stateOf {α : Type} {c : Nat} (xs : List α) (index : Nat)
    (hlen : xs.length ≤ c) (hi : index < xs.length) :
    erase index (stateOf c xs) = (none, stateOf c (xs.eraseIdx index)) := by
  have h0 : ¬ (index ≥ (stateOf c xs).size_) := by
    show ¬ (index ≥ xs.length)
    omega
  obtain ⟨x, hx⟩ := Option.isSome_iff_exists.1 (getElem?_isSome_of_lt hi)
  have hloop := erase_loop c (xs.length - 1 - index) index
    (Function.update (fun j => xs[j]?) index none) (by omega) (by simp) (by
      intro j hj1 hj2
      have hne : j ≠ index := by omega
      rw [Function.update_noteq hne]
      exact getElem?_isSome_of_lt (by omega))
  unfold erase
  rw [if_neg h0]
  show (match (bufOf c (fun j => xs[j]?)).destroy index with
    | (some e, d) => (some e, { stateOf c xs with data_ := d })
    | (none, d) =>
      match forUp erase_body (xs.length - 1 - index) index d with
      | (some e, d') => (some e, { stateOf c xs with data_ := d' })
      | (none, d') => (none, { stateOf c xs with data_ := d', size_ := xs.length - 1 })) = _
  rw [destroy_bufOf (show index < c by omega) hx]
  simp only [hloop]
  unfold stateOf
  simp only [List.length_eraseIdx_of_lt hi, Prod.mk.injEq, Vector.mk.injEq, true_and]
  apply bufOf_congr
  intro j _
  simp only [Function.update_apply]
  rw [List.getElem?_eraseIdx]
  by_cases hj : j < xs.length - 1
  · split_ifs <;> first | rfl | omega
  · have h1 : xs[j + 1]? = none := getElem?_none_of_le (by omega)
    rw [h1]
    by_cases hj2 : j = xs.length - 1
    · split_ifs <;> first | rfl | omega
    · have h2 : xs[j]? = none := getElem?_none_of_le (by omega)
      rw [h2]
      split_ifs <;> rfl

theorem erase_range_stateOf {α : Type} {c : Nat} (xs : List α) (first last : Nat)
    (hlen : xs.length ≤ c) (hfl : first < last) (hl : last ≤ xs.length) :
    erase_range first last (stateOf c xs) =
      (none, stateOf c (xs.take first ++ xs.drop last)) := by
  have h0 : ¬ (first ≥ (stateOf c xs).size_ ∨ last > (stateOf c xs).size_ ∨ first ≥ last) := by
    show ¬ (first ≥ xs.length ∨ last > xs.length ∨ first ≥ last)
    omega
  have hloop1 := destroy_loop c (last - first) first (fun j => xs[j]?) (by omega)
    (fun j _ hj => getElem?_isSome_of_lt (by omega))
  have hloop2 := erase_range_loop c (xs.length - last) first last
    (fun j => if first ≤ j ∧ j < first + (last - first) then none else xs[j]?)
    hfl (by omega) (by
      intro j hj1 hj2
      beta_reduce
      rw [if_pos (by omega)]) (by
      intro j hj1 hj2
      beta_reduce
      rw [if_neg (by omega)]
      exact getElem?_isSome_of_lt (by omega))
  beta_reduce at hloop1 hloop2
  unfold erase_range
  rw [if_neg h0]
  show (match forUp erase_range_destroy (last - first) first (bufOf c (fun j => xs[j]?)) with
    | (some e, d) => (some e, { stateOf c xs with data_ := d })
    | (none, d) =>
      match forUp erase_range_body (xs.length - last) last (first, d) with
      | (some e, st) => (some e, { stateOf c xs with data_ := st.2 })
      | (none, st) =>
        (none, { stateOf c xs with data_ := st.2, size_ := xs.length - (last - first) })) = _
  have hd : (erase_range_destroy : Nat → Buf α → Option Failure × Buf α) =
      (fun (k : Nat) (d : Buf α) => d.destroy k) := rfl
  rw [hd, hloop1]
  simp only [hloop2]
  unfold stateOf
  have hlen2 : (xs.take first ++ xs.drop last).length = xs.length - (last - first) := by
    simp only [List.length_append, List.length_take, List.length_drop]
    omega
  simp only [hlen2, Prod.mk.injEq, Vector.mk.injEq, true_and]
  apply bufOf_congr
  intro j _
  rw [getElem?_erase_range xs first last j (by omega)]
  by_cases hj : j < first
  · split_ifs <;> first | rfl | omega
  · by_cases hj2 : j < first + (xs.length - last)
    · have e : j + (last - first) = last + (j - first) := by omega
      rw [if_pos (by omega), if_neg (by omega), if_neg hj, e]
    · have h1 : xs[last + (j - first)]? = none := getElem?_none_of_le (by omega)
      rw [h1, if_neg (by omega), if_neg hj]
      by_cases hj3 : j < xs.length
      · split_ifs <;> first | rfl | omega
      · have h2 : xs[j]? = none := getElem?_none_of_le (by omega)
        rw [h2]
        split_ifs <;> rfl

theorem grown_eq_max (c : Nat) : grown c = max 1 (2 * c) := by
  unfold grown
  split_ifs <;> omega

theorem new_eq_stateOf {α : Type} : (new : Vector α) = stateOf 0 [] := rfl

theorem Vector.WF.content_le {α : Type} {s : Vector α} (h : s.WF) :
    s.content.length ≤ s.capacity_ := by
  rw [h.content_length]
  exact h.2.1

theorem insert_wf {α : Type} (A : Nat → Bool) (s : Vector α) (index : Nat) (value : α)
    (hwf : s.WF) (hi : index ≤ s.size_) (hA : s.size_ = s.capacity_ → A (grown s.capacity_) = true) :
    insert A index (Arg.val value) s =
      (none, stateOf (if s.size_ = s.capacity_ then grown s.capacity_ else s.capacity_)
        (s.content.take index ++ [value] ++ s.content.drop index)) := by
  have hl := hwf.content_length
  have key := insert_stateOf A s.content index value hwf.content_le (by omega)
    (by rw [hl]; exact hA)
  rw [← hwf.eq_stateOf.1, hl] at key
  exact key

theorem push_back_wf {α : Type} (A : Nat → Bool) (s : Vector α) (v : α)
    (hwf : s.WF) (hA : s.size_ = s.capacity_ → A (grown s.capacity_) = true) :
    push_back A (Arg.val v) s =
      (none, stateOf (if s.size_ = s.capacity_ then grown s.capacity_ else s.capacity_)
        (s.content ++ [v])) := by
  have hl := hwf.content_length
  have key := push_back_stateOf A s.content v hwf.content_le (by rw [hl]; exact hA)
  rw [← hwf.eq_stateOf.1, hl] at key
  exact key

theorem erase_wf {α : Type} (s : Vector α) (index : Nat) (hwf : s.WF) (hi : index < s.size_) :
    erase index s = (none, stateOf s.capacity_ (s.content.eraseIdx index)) := by
  have hl := hwf.content_length
  have key := erase_stateOf s.content index hwf.content_le (by omega)
  rw [← hwf.eq_stateOf.1] at key
  exact key

theorem erase_range_wf {α : Type} (s : Vector α) (first last : Nat) (hwf : s.WF)
    (hfl : first < last) (hl : last ≤ s.size_) :
    erase_range first last s =
      (none, stateOf s.capacity_ (s.content.take first ++ s.content.drop last)) := by
  have hlen := hwf.content_length
  have key := erase_range_stateOf s.content first last hwf.content_le hfl (by omega)
  rw [← hwf.eq_stateOf.1] at key
  exact key

theorem reserve_wf {α : Type} (A : Nat → Bool) (s : Vector α) (cap : Nat) (hwf : s.WF)
    (hcap : s.capacity_ < cap) (hA : A cap = true) :
    reserve A cap s = (none, stateOf cap s.content) := by
  have key := reserve_stateOf A s.content hwf.content_le hcap hA
  rw [← hwf.eq_stateOf.1] at key
  exact key

theorem grown_target_gt {α : Type} (s : Vector α) (h : s.size_ ≤ s.capacity_) :
    s.size_ < (if s.size_ = s.capacity_ then grown s.capacity_ else s.capacity_) := by
  have := lt_grown s.capacity_
  split_ifs <;> omega

/-! What every call leaves of `size_` and `capacity_` -/

theorem reserve_frame {α : Type} (A : Nat → Bool) (cap : Nat) (s : Vector α) :
    (reserve A cap s).2.size_ = s.size_ ∧ s.capacity_ ≤ (reserve A cap s).2.capacity_ ∧
    ((reserve A cap s).1 = none → cap ≤ (reserve A cap s).2.capacity_) ∧
    ((reserve A cap s).2.capacity_ = s.capacity_ ∨ (reserve A cap s).2.capacity_ = cap) := by
  unfold reserve
  split_ifs with h
  · split
    · simp
    · split
      · simp
      · simp only [le_refl, implies_true, or_true, and_true, true_and]
        omega
  · simp only [le_refl, implies_true, true_or, and_true, true_and]
    omega

theorem grow_frame {α : Type} (A : Nat → Bool) (s : Vector α) (r : Res α)
    (h : (if s.size_ = s.capacity_ then reserve A (grown s.capacity_) s else (none, s)) = r) :
    r.2.size_ = s.size_ ∧ s.capacity_ ≤ r.2.capacity_ ∧
    (r.1 = none → s.size_ ≤ s.capacity_ → s.size_ < r.2.capacity_) := by
  subst h
  have hf := reserve_frame A (grown s.capacity_) s
  have hg := lt_grown s.capacity_
  split_ifs with h1
  · refine ⟨hf.1, hf.2.1, fun hn _ => ?_⟩
    have := hf.2.2.1 hn
    omega
  · refine ⟨rfl, le_refl _, fun _ hle => ?_⟩
    show s.size_ < s.capacity_
    omega

theorem insert_frame {α : Type} (A : Nat → Bool) (index : Nat) (v : Arg α) (s : Vector α)
    (h : s.size_ ≤ s.capacity_) :
    (insert A index v s).2.size_ ≤ (insert A index v s).2.capacity_ ∧
    s.capacity_ ≤ (insert A index v s).2.capacity_ := by
  unfold Vector.insert
  by_cases h0 : index > s.size_
  · rw [if_pos h0]
    exact ⟨h, le_refl _⟩
  · rw [if_neg h0]
    generalize hg : (if s.size_ = s.capacity_ then reserve A (grown s.capacity_) s
      else (none, s)) = r
    have hf := grow_frame A s r hg
    obtain ⟨o, s1⟩ := r
    cases o with
    | some e =>
      simp only at hf ⊢
      omega
    | none =>
      have hlt := hf.2.2 rfl h
      simp only at hf hlt ⊢
      split
      · simp only
        omega
      · split
        · simp only
          omega
        · split
          · simp only
            omega
          · simp only
            omega

theorem push_back_frame {α : Type} (A : Nat → Bool) (v : Arg α) (s : Vector α)
    (h : s.size_ ≤ s.capacity_) :
    (push_back A v s).2.size_ ≤ (push_back A v s).2.capacity_ ∧
    s.capacity_ ≤ (push_back A v s).2.capacity_ := by
  unfold push_back
  generalize hg : (if s.size_ = s.capacity_ then reserve A (grown s.capacity_) s
    else (none, s)) = r
  have hf := grow_frame A s r hg
  obtain ⟨o, s1⟩ := r
  cases o with
  | some e =>
    simp only at hf ⊢
    omega
  | none =>
    have hlt := hf.2.2 rfl h
    simp only at hf hlt ⊢
    split
    · simp only
      omega
    · split
      · simp only
        omega
      · simp only
        omega

theorem pop_back_frame {α : Type} (s : Vector α) (h : s.size_ ≤ s.capacity_) :
    (pop_back s).2.size_ ≤ (pop_back s).2.capacity_ ∧
    (pop_back s).2.capacity_ = s.capacity_ := by
  unfold pop_back
  split_ifs with h0
  · split
    · exact ⟨h, rfl⟩
    · exact ⟨by simp only; omega, rfl⟩
  · exact ⟨h, rfl⟩

theorem erase_frame {α : Type} (index : Nat) (s : Vector α) (h : s.size_ ≤ s.capacity_) :
    (erase index s).2.size_ ≤ (erase index s).2.capacity_ ∧
    (erase index s).2.capacity_ = s.capacity_ := by
  unfold erase
  split_ifs with h0
  · exact ⟨h, rfl⟩
  · split
    · exact ⟨h, rfl⟩
    · split
      · exact ⟨h, rfl⟩
      · exact ⟨by simp only; omega, rfl⟩

theorem erase_range_frame {α : Type} (first last : Nat) (s : Vector α)
    (h : s.size_ ≤ s.capacity_) :
    (erase_range first last s).2.size_ ≤ (erase_range first last s).2.capacity_ ∧
    (erase_range first last s).2.capacity_ = s.capacity_ := by
  unfold erase_range
  split_ifs with h0
  · exact ⟨h, rfl⟩
  · simp only
    split
    · exact ⟨h, rfl⟩
    · split
      · exact ⟨h, rfl⟩
      · exact ⟨by simp only; omega, rfl⟩

theorem clear_frame {α : Type} (s : Vector α) (h : s.size_ ≤ s.capacity_) :
    (clear s).2.size_ ≤ (clear s).2.capacity_ ∧ (clear s).2.capacity_ = s.capacity_ := by
  unfold clear
  split
  · exact ⟨h, rfl⟩
  · exact ⟨by simp only; omega, rfl⟩

theorem withCapacity_frame {α : Type} (A : Nat → Bool) (n : Nat) (w : Vector α)
    (h : withCapacity A n = Except.ok w) : w.size_ = 0 ∧ w.capacity_ = n := by
  unfold withCapacity at h
  split at h
  · cases h
  · cases h
    exact ⟨rfl, rfl⟩

theorem copy_frame {α : Type} (A : Nat → Bool) (s w : Vector α)
    (h : copy A s = Except.ok w) : w.size_ = s.size_ ∧ w.capacity_ = s.capacity_ := by
  unfold copy at h
  split at h
  · cases h
  · split at h
    · cases h
      exact ⟨rfl, rfl⟩
    · cases h

/-! What the memory steps and the loops can signal -/

theorem construct_mem {α : Type} (b : Buf α) (p : Nat) (v : α) :
    MemOutcome (b.construct p v).1 := by
  unfold Buf.construct MemOutcome
  split <;> simp

theorem destroy_mem {α : Type} (b : Buf α) (p : Nat) : MemOutcome (b.destroy p).1 := by
  unfold Buf.destroy MemOutcome
  split <;> simp

theorem forUp_mem {σ : Type} (body : Nat → σ → Option Failure × σ)
    (hb : ∀ i s, MemOutcome (body i s).1) :
    ∀ (n i : Nat) (s : σ), MemOutcome (forUp body n i s).1
  | 0, _, _ => Or.inl rfl
  | n + 1, i, s => by
    have h1 := hb i s
    unfold forUp
    split
    · exact forUp_mem body hb n (i + 1) _
    · rename_i e s' heq
      rw [heq] at h1
      exact h1

theorem forDown_mem {σ : Type} (body : Nat → σ → Option Failure × σ)
    (hb : ∀ i s, MemOutcome (body i s).1) :
    ∀ (n i : Nat) (s : σ), MemOutcome (forDown body n i s).1
  | 0, _, _ => Or.inl rfl
  | n + 1, i, s => by
    have h1 := hb i s
    unfold forDown
    split
    · exact forDown_mem body hb n (i - 1) _
    · rename_i e s' heq
      rw [heq] at h1
      exact h1

theorem reserve_body_mem {α : Type} (i : Nat) (st : Buf α × Buf α) :
    MemOutcome (reserve_body i st).1 := by
  unfold reserve_body
  cases st.1.read i with
  | none => exact Or.inr rfl
  | some v =>
    simp only
    have hc := construct_mem st.2 i v
    generalize st.2.construct i v = r at hc
    obtain ⟨o, nd⟩ := r
    cases o with
    | some e => exact hc
    | none => exact destroy_mem st.1 i

theorem insert_body_mem {α : Type} (i : Nat) (d : Buf α) : MemOutcome (insert_body i d).1 := by
  unfold insert_body
  cases d.read (i - 1) with
  | none => exact Or.inr rfl
  | some v =>
    simp only
    have hc := construct_mem d i v
    generalize d.construct i v = r at hc
    obtain ⟨o, nd⟩ := r
    cases o with
    | some e => exact hc
    | none => exact destroy_mem nd (i - 1)

theorem erase_body_mem {α : Type} (i : Nat) (d : Buf α) : MemOutcome (erase_body i d).1 := by
  unfold erase_body
  cases d.read (i + 1) with
  | none => exact Or.inr rfl
  | some v =>
    simp only
    have hc := construct_mem d i v
    generalize d.construct i v = r at hc
    obtain ⟨o, nd⟩ := r
    cases o with
    | some e => exact hc
    | none => exact destroy_mem nd (i + 1)

theorem erase_range_body_mem {α : Type} (i : Nat) (st : Nat × Buf α) :
    MemOutcome (erase_range_body i st).1 := by
  unfold erase_range_body
  cases st.2.read i with
  | none => exact Or.inr rfl
  | some v =>
    simp only
    have hc := construct_mem st.2 st.1 v
    generalize st.2.construct st.1 v = r at hc
    obtain ⟨o, nd⟩ := r
    cases o with
    | some e => exact hc
    | none => exact destroy_mem nd i

theorem MemOutcome.ne_out_of_range {o : Option Failure} (h : MemOutcome o) :
    o ≠ some Failure.out_of_range := by
  rcases h with h | h <;> rw [h] <;> simp

theorem reserve_ne_out_of_range {α : Type} (A : Nat → Bool) (cap : Nat) (s : Vector α) :
    (reserve A cap s).1 ≠ some Failure.out_of_range := by
  unfold reserve
  split_ifs
  · cases allocate A cap with
    | none => simp
    | some nd =>
      simp only
      have hm := (forUp_mem reserve_body reserve_body_mem s.size_ 0 (s.data_, nd)).ne_out_of_range
      generalize forUp reserve_body s.size_ 0 (s.data_, nd) = r at hm
      obtain ⟨o, st⟩ := r
      cases o with
      | none => simp
      | some e => exact hm
  · simp

theorem insert_ne_out_of_range {α : Type} (A : Nat → Bool) (index : Nat) (v : Arg α)
    (s : Vector α) (h : index ≤ s.size_) :
    (insert A index v s).1 ≠ some Failure.out_of_range := by
  unfold Vector.insert
  rw [if_neg (by omega)]
  generalize hg : (if s.size_ = s.capacity_ then reserve A (grown s.capacity_) s
    else (none, s)) = r
  have hr : r.1 ≠ some Failure.out_of_range := by
    rw [← hg]
    split_ifs
    · exact reserve_ne_out_of_range A _ s
    · simp
  obtain ⟨o, s1⟩ := r
  cases o with
  | some e => exact hr
  | none =>
    simp only
    have hm := (forDown_mem insert_body insert_body_mem (s1.size_ - index) s1.size_
      s1.data_).ne_out_of_range
    generalize forDown insert_body (s1.size_ - index) s1.size_ s1.data_ = r1 at hm
    obtain ⟨o1, d⟩ := r1
    cases o1 with
    | some e => exact hm
    | none =>
      simp only
      cases v.read (decide (s.size_ = s.capacity_)) d with
      | none => simp
      | some x =>
        simp only
        have hc := (construct_mem d index x).ne_out_of_range
        generalize d.construct index x = r2 at hc
        obtain ⟨o2, d'⟩ := r2
        cases o2 with
        | some e => exact hc
        | none => simp

theorem erase_ne_out_of_range {α : Type} (index : Nat) (s : Vector α) (h : index < s.size_) :
    (erase index s).1 ≠ some Failure.out_of_range := by
  unfold erase
  rw [if_neg (by omega)]
  have hd := (destroy_mem s.data_ index).ne_out_of_range
  generalize s.data_.destroy index = r at hd
  obtain ⟨o, d⟩ := r
  cases o with
  | some e => exact hd
  | none =>
    simp only
    have hm := (forUp_mem erase_body erase_body_mem (s.size_ - 1 - index) index d).ne_out_of_range
    generalize forUp erase_body (s.size_ - 1 - index) index d = r1 at hm
    obtain ⟨o1, d'⟩ := r1
    cases o1 with
    | some e => exact hm
    | none => simp

theorem erase_range_ne_out_of_range {α : Type} (first last : Nat) (s : Vector α)
    (h : ¬ (first ≥ s.size_ ∨ last > s.size_ ∨ first ≥ last)) :
    (erase_range first last s).1 ≠ some Failure.out_of_range := by
  unfold erase_range
  rw [if_neg h]
  simp only
  have hd := (forUp_mem erase_range_destroy (fun i d => destroy_mem d i) (last - first) first
    s.data_).ne_out_of_range
  generalize forUp erase_range_destroy (last - first) first s.data_ = r at hd
  obtain ⟨o, d⟩ := r
  cases o with
  | some e => exact hd
  | none =>
    simp only
    have hm := (forUp_mem erase_range_body erase_range_body_mem (s.size_ - last) last
      (first, d)).ne_out_of_range
    generalize forUp erase_range_body (s.size_ - last) last (first, d) = r1 at hm
    obtain ⟨o1, st⟩ := r1
    cases o1 with
    | some e => exact hm
    | none => simp

theorem push_all_stateOf {α : Type} (A : Nat → Bool) (hA : ∀ n, A n = true) :
    ∀ (ys xs : List α) (c : Nat), xs.length ≤ c →
      ∃ c', (xs ++ ys).length ≤ c' ∧ push_all A ys (stateOf c xs) = (none, stateOf c' (xs ++ ys))
  | [], xs, c, h => ⟨c, by simpa using h, by simp [push_all]⟩
  | y :: ys, xs, c, h => by
    have hc := lt_grown c
    have hle : (xs ++ [y]).length ≤ (if xs.length = c then grown c else c) := by
      rw [List.length_append, List.length_singleton]
      split_ifs <;> omega
    obtain ⟨c', h1, h2⟩ := push_all_stateOf A hA ys (xs ++ [y]) _ hle
    refine ⟨c', by simpa using h1, ?_⟩
    unfold push_all
    rw [push_back_stateOf A xs y h (fun _ => hA _)]
    simpa using h2

theorem subscript_wf {α : Type} (s : Vector α) (index : Nat) (hwf : s.WF) :
    subscript index s =
      (match s.content[index]? with
        | some v => Except.ok v
        | none => Except.error Failure.out_of_range, s) := by
  have hl := hwf.content_length
  have hle := hwf.2.1
  have hd : s.data_ = bufOf s.capacity_ (fun j => s.content[j]?) := by
    have := hwf.eq_stateOf.1
    exact congrArg Vector.data_ this
  unfold subscript
  by_cases h : index ≥ s.size_
  · rw [if_pos h, getElem?_none_of_le (by omega)]
  · rw [if_neg h, hd, read_bufOf (by omega)]
    have hlt : index < s.content.length := by omega
    rw [List.getElem?_eq_getElem hlt]

/-! The remaining operations on valid states -/

theorem pop_back_stateOf {α : Type} {c : Nat} (xs : List α) (hlen : xs.length ≤ c) :
    pop_back (stateOf c xs) = (none, stateOf c xs.dropLast) := by
  unfold pop_back
  by_cases h0 : xs.length > 0
  · have h1 : (stateOf c xs).size_ > 0 := h0
    obtain ⟨x, hx⟩ := Option.isSome_iff_exists.1
      (getElem?_isSome_of_lt (show xs.length - 1 < xs.length by omega))
    rw [if_pos h1]
    show (match (bufOf c (fun j => xs[j]?)).destroy (xs.length - 1) with
      | (some e, d) => (some e, { stateOf c xs with data_ := d })
      | (none, d) => (none, { stateOf c xs with data_ := d, size_ := xs.length - 1 })) = _
    rw [destroy_bufOf (show xs.length - 1 < c by omega) hx]
    unfold stateOf
    simp only [List.length_dropLast, Prod.mk.injEq, Vector.mk.injEq, true_and]
    apply bufOf_congr
    intro j _
    simp only [Function.update_apply]
    rw [List.getElem?_dropLast]
    by_cases hj : j < xs.length - 1
    · rw [if_neg (by omega), if_pos hj]
    · rw [if_neg hj]
      by_cases hj2 : j = xs.length - 1
      · rw [if_pos hj2]
      · rw [if_neg hj2, getElem?_none_of_le (by omega)]
  · have h1 : ¬ (stateOf c xs).size_ > 0 := h0
    have hnil : xs = [] := List.length_eq_zero.1 (by omega)
    rw [if_neg h1, hnil]
    rfl

theorem clear_stateOf {α : Type} {c : Nat} (xs : List α) (hlen : xs.length ≤ c) :
    clear (stateOf c xs) = (none, stateOf c []) := by
  have hloop := destroy_loop c xs.length 0 (fun j => xs[j]?) (by omega)
    (fun j _ hj => getElem?_isSome_of_lt (by omega))
  have hd : (clear_body : Nat → Buf α → Option Failure × Buf α) =
      (fun (k : Nat) (d : Buf α) => d.destroy k) := rfl
  unfold clear
  show (match forUp clear_body xs.length 0 (bufOf c (fun j => xs[j]?)) with
    | (some e, d) => (some e, { stateOf c xs with data_ := d })
    | (none, d) => (none, { stateOf c xs with data_ := d, size_ := 0 })) = _
  rw [hd, hloop]
  unfold stateOf
  simp only [List.length_nil, Prod.mk.injEq, Vector.mk.injEq, true_and]
  apply bufOf_congr
  intro j _
  by_cases hj : j < xs.length
  · rw [if_pos (by omega)]
    rfl
  · rw [if_neg (by omega), getElem?_none_of_le (by omega)]
    rfl

theorem copy_loop {α : Type} (c c' : Nat) (other : Vector α) (f : Nat → Option α)
    (hother : other.data_ = bufOf c' f) :
    ∀ (n i : Nat) (g : Nat → Option α), i + n ≤ c → i + n ≤ c' →
      (∀ j, i ≤ j → j < i + n → (f j).isSome = true ∧ g j = none) →
      forUp (copy_body other) n i (bufOf c g) =
        (none, bufOf c (fun j => if i ≤ j ∧ j < i + n then f j else g j))
  | 0, i, g, _, _, _ => by
    have h1 : ∀ j, ¬ (i ≤ j ∧ j < i + 0) := by intro j; omega
    simp only [forUp, h1, if_false]
  | n + 1, i, g, hc, hc', h => by
    obtain ⟨hs, hg⟩ := h i (le_refl i) (by omega)
    obtain ⟨v, hv⟩ := Option.isSome_iff_exists.1 hs
    have hr : other.data_.read i = some v := by rw [hother, read_bufOf (by omega), hv]
    have ih := copy_loop c c' other f hother n (i + 1) (Function.update g i (some v))
      (by omega) (by omega) (by
        intro j hj1 hj2
        have hne : j ≠ i := by omega
        rw [Function.update_noteq hne]
        exact h j (by omega) (by omega))
    simp only [forUp, copy_body, hr, construct_bufOf v (show i < c by omega) hg, ih]
    refine Prod.ext rfl ?_
    apply bufOf_congr
    intro j _
    simp only [Function.update_apply]
    by_cases hji : j = i
    · rw [hji, if_neg (by omega), if_pos rfl, if_pos (by omega), hv]
    · have e1 : (i + 1 ≤ j ∧ j < i + 1 + n) ↔ (i ≤ j ∧ j < i + (n + 1)) := by omega
      simp only [hji, if_false, e1]

theorem copy_stateOf {α : Type} (A : Nat → Bool) {c : Nat} (xs : List α)
    (hlen : xs.length ≤ c) (hA : A c = true) :
    copy A (stateOf c xs) = Except.ok (stateOf c xs) := by
  have hloop := copy_loop c c (stateOf c xs) (fun j => xs[j]?) rfl xs.length 0
    (fun _ => (none : Option α)) (by omega) (by omega)
    (fun j _ hj => ⟨getElem?_isSome_of_lt (by omega), rfl⟩)
  unfold copy allocate
  have hc : (stateOf c xs).capacity_ = c := rfl
  have hs : (stateOf c xs).size_ = xs.length := rfl
  simp only [hc, hs, hA, if_true, replicate_none_eq_bufOf, hloop]
  unfold stateOf
  simp only [Except.ok.injEq, Vector.mk.injEq, true_and]
  apply bufOf_congr
  intro j _
  by_cases hj : j < xs.length
  · rw [if_pos (by omega)]
  · rw [if_neg (by omega), getElem?_none_of_le (by omega)]

theorem pop_back_wf {α : Type} (s : Vector α) (hwf : s.WF) :
    pop_back s = (none, stateOf s.capacity_ s.content.dropLast) := by
  have key := pop_back_stateOf s.content hwf.content_le
  rw [← hwf.eq_stateOf.1] at key
  exact key

theorem clear_wf {α : Type} (s : Vector α) (hwf : s.WF) :
    clear s = (none, stateOf s.capacity_ []) := by
  have key := clear_stateOf s.content hwf.content_le
  rw [← hwf.eq_stateOf.1] at key
  exact key

theorem copy_wf {α : Type} (A : Nat → Bool) (s : Vector α) (hwf : s.WF)
    (hA : A s.capacity_ = true) : copy A s = Except.ok s := by
  have key := copy_stateOf A s.content hwf.content_le hA
  rw [← hwf.eq_stateOf.1] at key
  exact key

/-! The capacity along the calls -/

theorem insert_capacity_grow {α : Type} (A : Nat → Bool) (index : Nat) (v : Arg α)
    (s : Vector α) (h0 : index ≤ s.size_) :
    (insert A index v s).2.capacity_ =
      (if s.size_ = s.capacity_ then reserve A (grown s.capacity_) s
        else (none, s)).2.capacity_ := by
  unfold Vector.insert
  rw [if_neg (by omega)]
  generalize (if s.size_ = s.capacity_ then reserve A (grown s.capacity_) s
    else (none, s)) = r
  obtain ⟨o, s1⟩ := r
  cases o with
  | some e => rfl
  | none =>
    simp only
    split
    · rfl
    · split
      · rfl
      · split <;> rfl

theorem push_back_capacity_grow {α : Type} (A : Nat → Bool) (v : Arg α) (s : Vector α) :
    (push_back A v s).2.capacity_ =
      (if s.size_ = s.capacity_ then reserve A (grown s.capacity_) s
        else (none, s)).2.capacity_ := by
  unfold push_back
  generalize (if s.size_ = s.capacity_ then reserve A (grown s.capacity_) s
    else (none, s)) = r
  obtain ⟨o, s1⟩ := r
  cases o with
  | some e => rfl
  | none =>
    simp only
    split
    · rfl
    · split <;> rfl

theorem insert_capacity {α : Type} (A : Nat → Bool) (index : Nat) (v : Arg α) (s : Vector α) :
    s.capacity_ ≤ (insert A index v s).2.capacity_ := by
  by_cases h0 : index ≤ s.size_
  · rw [insert_capacity_grow A index v s h0]
    exact (grow_frame A s _ rfl).2.1
  · unfold Vector.insert
    rw [if_pos (by omega)]

theorem push_back_capacity {α : Type} (A : Nat → Bool) (v : Arg α) (s : Vector α) :
    s.capacity_ ≤ (push_back A v s).2.capacity_ := by
  rw [push_back_capacity_grow A v s]
  exact (grow_frame A s _ rfl).2.1

theorem pop_back_capacity {α : Type} (s : Vector α) :
    (pop_back s).2.capacity_ = s.capacity_ := by
  unfold pop_back
  split_ifs
  · split <;> rfl
  · rfl

theorem erase_capacity {α : Type} (index : Nat) (s : Vector α) :
    (erase index s).2.capacity_ = s.capacity_ := by
  unfold erase
  split_ifs
  · rfl
  · split
    · rfl
    · split <;> rfl

theorem erase_range_capacity {α : Type} (first last : Nat) (s : Vector α) :
    (erase_range first last s).2.capacity_ = s.capacity_ := by
  unfold erase_range
  split_ifs
  · rfl
  · simp only
    split
    · rfl
    · split <;> rfl

theorem clear_capacity {α : Type} (s : Vector α) : (clear s).2.capacity_ = s.capacity_ := by
  unfold clear
  split <;> rfl

theorem subscript_state {α : Type} (index : Nat) (s : Vector α) :
    (subscript index s).2 = s ∧ (subscript_const index s).2 = s := by
  unfold subscript subscript_const
  constructor
  · split_ifs
    · rfl
    · split <;> rfl
  · split_ifs
    · rfl
    · split <;> rfl

theorem grown_pow (k : Nat) : grown (2 ^ k) = 2 ^ (k + 1) := by
  have := Nat.pos_pow_of_pos k (show 0 < 2 by omega)
  unfold grown
  rw [if_pos (by omega), pow_succ]

theorem push_all_pow2 {α : Type} (A : Nat → Bool) (hA : ∀ n, A n = true) :
    ∀ (ys xs : List α) (k : Nat), xs.length ≤ 2 ^ k → 2 ^ k < 2 * xs.length →
      ∃ k', push_all A ys (stateOf (2 ^ k) xs) = (none, stateOf (2 ^ k') (xs ++ ys)) ∧
        (xs ++ ys).length ≤ 2 ^ k' ∧ 2 ^ k' < 2 * (xs ++ ys).length
  | [], xs, k, h1, h2 => ⟨k, by simp [push_all], by simpa using h1, by simpa using h2⟩
  | y :: ys, xs, k, h1, h2 => by
    have hstep := push_back_stateOf A xs y h1 (fun _ => hA _)
    have hlen : (xs ++ [y]).length = xs.length + 1 := by simp
    by_cases hfull : xs.length = 2 ^ k
    · rw [if_pos hfull, grown_pow] at hstep
      have hp : 2 ^ (k + 1) = 2 * 2 ^ k := by rw [pow_succ]; omega
      obtain ⟨k', e, b1, b2⟩ := push_all_pow2 A hA ys (xs ++ [y]) (k + 1)
        (by rw [hlen]; omega) (by rw [hlen]; omega)
      refine ⟨k', ?_, by simpa using b1, by simpa using b2⟩
      unfold push_all
      rw [hstep]
      simpa using e
    · rw [if_neg hfull] at hstep
      obtain ⟨k', e, b1, b2⟩ := push_all_pow2 A hA ys (xs ++ [y]) k
        (by rw [hlen]; omega) (by rw [hlen]; omega)
      refine ⟨k', ?_, by simpa using b1, by simpa using b2⟩
      unfold push_all
      rw [hstep]
      simpa using e

theorem push_all_new_pow2 {α : Type} (A : Nat → Bool) (hA : ∀ n, A n = true) (xs : List α)
    (hne : xs ≠ []) :
    ∃ k, push_all A xs new = (none, stateOf (2 ^ k) xs) ∧
      xs.length ≤ 2 ^ k ∧ 2 ^ k < 2 * xs.length := by
  cases xs with
  | nil => exact absurd rfl hne
  | cons y ys =>
    have hstep := push_back_stateOf A ([] : List α) y (c := 0) (le_refl _) (fun _ => hA _)
    obtain ⟨k', e, b1, b2⟩ := push_all_pow2 A hA ys [y] 0 (by simp) (by simp)
    refine ⟨k', ?_, by simpa using b1, by simpa using b2⟩
    unfold push_all
    rw [new_eq_stateOf, hstep]
    simpa using e

/-! Refused requests and the validity of what every call leaves -/

theorem reserve_refused {α : Type} (A : Nat → Bool) (cap : Nat) (s : Vector α)
    (hcap : cap > s.capacity_) (hA : A cap = false) :
    reserve A cap s = (some Failure.bad_alloc, s) := by
  unfold reserve allocate
  rw [if_pos hcap]
  simp [hA]

theorem push_back_refused {α : Type} (A : Nat → Bool) (v : Arg α) (s : Vector α)
    (hfull : s.size_ = s.capacity_) (hA : A (grown s.capacity_) = false) :
    push_back A v s = (some Failure.bad_alloc, s) := by
  unfold push_back
  rw [if_pos hfull, reserve_refused A _ s (lt_grown _) hA]

theorem insert_refused {α : Type} (A : Nat → Bool) (index : Nat) (v : Arg α) (s : Vector α)
    (hi : index ≤ s.size_) (hfull : s.size_ = s.capacity_)
    (hA : A (grown s.capacity_) = false) :
    insert A index v s = (some Failure.bad_alloc, s) := by
  unfold Vector.insert
  rw [if_neg (by omega), if_pos hfull, reserve_refused A _ s (lt_grown _) hA]

theorem subscript_assign_stateOf {α : Type} {c : Nat} (xs : List α) (index : Nat) (v : α)
    (hlen : xs.length ≤ c) (hi : index < xs.length) :
    subscript_assign index v (stateOf c xs) = (none, stateOf c (xs.set index v)) := by
  have hs := subscript_wf (stateOf c xs) index (wf_stateOf hlen)
  rw [content_stateOf hlen, List.getElem?_eq_getElem hi] at hs
  unfold subscript_assign
  rw [hs]
  unfold stateOf
  simp only [List.length_set, Prod.mk.injEq, Vector.mk.injEq, true_and, bufOf_set]
  apply bufOf_congr
  intro j _
  simp only [Function.update_apply]
  rw [List.getElem?_set]
  by_cases hji : j = index
  · rw [if_pos hji, if_pos hji.symm, if_pos hi]
  · rw [if_neg hji, if_neg (fun h => hji h.symm)]

theorem reserve_valid {α : Type} (A : Nat → Bool) (cap : Nat) (s : Vector α) (hwf : s.WF) :
    (reserve A cap s).1 ≠ some Failure.undefined ∧ (reserve A cap s).2.WF := by
  by_cases hcap : cap > s.capacity_
  · cases hA : A cap with
    | false =>
      rw [reserve_refused A cap s hcap hA]
      exact ⟨by simp, hwf⟩
    | true =>
      rw [reserve_wf A s cap hwf hcap hA]
      have := hwf.content_le
      exact ⟨by simp, wf_stateOf (by omega)⟩
  · unfold reserve
    rw [if_neg hcap]
    exact ⟨by simp, hwf⟩

theorem push_back_valid {α : Type} (A : Nat → Bool) (v : α) (s : Vector α) (hwf : s.WF) :
    (push_back A (Arg.val v) s).1 ≠ some Failure.undefined ∧
    (push_back A (Arg.val v) s).2.WF := by
  by_cases hg : s.size_ = s.capacity_ → A (grown s.capacity_) = true
  · have hc := grown_target_gt s hwf.2.1
    rw [push_back_wf A s v hwf hg]
    refine ⟨by simp, wf_stateOf ?_⟩
    rw [List.length_append, List.length_singleton, hwf.content_length]
    omega
  · have hfull : s.size_ = s.capacity_ := by
      by_contra h
      exact hg (fun h' => absurd h' h)
    have hA : A (grown s.capacity_) = false := by
      cases h : A (grown s.capacity_) with
      | false => rfl
      | true => exact absurd (fun _ => h) hg
    rw [push_back_refused A (Arg.val v) s hfull hA]
    exact ⟨by simp, hwf⟩

theorem insert_valid {α : Type} (A : Nat → Bool) (index : Nat) (v : α) (s : Vector α)
    (hwf : s.WF) :
    (insert A index (Arg.val v) s).1 ≠ some Failure.undefined ∧
    (insert A index (Arg.val v) s).2.WF := by
  by_cases hi : index ≤ s.size_
  · by_cases hg : s.size_ = s.capacity_ → A (grown s.capacity_) = true
    · have hc := grown_target_gt s hwf.2.1
      rw [insert_wf A s index v hwf hi hg]
      refine ⟨by simp, wf_stateOf ?_⟩
      rw [length_insert, hwf.content_length]
      omega
    · have hfull : s.size_ = s.capacity_ := by
        by_contra h
        exact hg (fun h' => absurd h' h)
      have hA : A (grown s.capacity_) = false := by
        cases h : A (grown s.capacity_) with
        | false => rfl
        | true => exact absurd (fun _ => h) hg
      rw [insert_refused A index (Arg.val v) s hi hfull hA]
      exact ⟨by simp, hwf⟩
  · unfold Vector.insert
    rw [if_pos (by omega)]
    exact ⟨by simp, hwf⟩

theorem pop_back_valid {α : Type} (s : Vector α) (hwf : s.WF) :
    (pop_back s).1 ≠ some Failure.undefined ∧ (pop_back s).2.WF := by
  rw [pop_back_wf s hwf]
  refine ⟨by simp, wf_stateOf ?_⟩
  have := hwf.content_le
  rw [List.length_dropLast]
  omega

theorem erase_valid {α : Type} (index : Nat) (s : Vector α) (hwf : s.WF) :
    (erase index s).1 ≠ some Failure.undefined ∧ (erase index s).2.WF := by
  by_cases hi : index < s.size_
  · rw [erase_wf s index hwf hi]
    refine ⟨by simp, wf_stateOf ?_⟩
    have := hwf.content_le
    have := List.length_eraseIdx_le s.content index
    omega
  · unfold erase
    rw [if_pos (by omega)]
    exact ⟨by simp, hwf⟩

theorem erase_range_valid {α : Type} (first last : Nat) (s : Vector α) (hwf : s.WF) :
    (erase_range first last s).1 ≠ some Failure.undefined ∧ (erase_range first last s).2.WF := by
  by_cases h : first ≥ s.size_ ∨ last > s.size_ ∨ first ≥ last
  · unfold erase_range
    rw [if_pos h]
    exact ⟨by simp, hwf⟩
  · rw [erase_range_wf s first last hwf (by omega) (by omega)]
    refine ⟨by simp, wf_stateOf ?_⟩
    have := hwf.content_le
    have := hwf.content_length
    simp only [List.length_append, List.length_take, List.length_drop]
    omega

theorem clear_valid {α : Type} (s : Vector α) (hwf : s.WF) :
    (clear s).1 ≠ some Failure.undefined ∧ (clear s).2.WF := by
  rw [clear_wf s hwf]
  exact ⟨by simp, wf_stateOf (Nat.zero_le _)⟩

theorem subscript_assign_valid {α : Type} (index : Nat) (v : α) (s : Vector α) (hwf : s.WF) :
    (subscript_assign index v s).1 ≠ some Failure.undefined ∧
    (subscript_assign index v s).2.WF := by
  by_cases hi : index < s.size_
  · have hl := hwf.content_length
    have key := subscript_assign_stateOf s.content index v hwf.content_le (by omega)
    rw [← hwf.eq_stateOf.1] at key
    rw [key]
    refine ⟨by simp, wf_stateOf ?_⟩
    rw [List.length_set]
    exact hwf.content_le
  · unfold subscript_assign subscript
    rw [if_pos (by omega)]
    exact ⟨by simp, hwf⟩

theorem new_valid {α : Type} : (new : Vector α).WF := by
  rw [new_eq_stateOf]
  exact wf_stateOf (le_refl _)

theorem withCapacity_valid {α : Type} (A : Nat → Bool) (n : Nat) (w : Vector α)
    (h : withCapacity A n = Except.ok w) : w.WF := by
  unfold withCapacity allocate at h
  cases hA : A n with
  | false => simp [hA] at h
  | true =>
    simp only [hA, if_true, Except.ok.injEq] at h
    rw [← h, replicate_none_eq_bufOf]
    exact @wf_stateOf α n [] (Nat.zero_le n)

theorem copy_valid {α : Type} (A : Nat → Bool) (s w : Vector α) (hwf : s.WF)
    (h : copy A s = Except.ok w) : w.WF := by
  cases hA : A s.capacity_ with
  | false =>
    unfold copy allocate at h
    simp [hA] at h
  | true =>
    rw [copy_wf A s hwf hA] at h
    cases h
    exact hwf

/-! Traversals between the iterators -/

theorem deref_stateOf {α : Type} {c : Nat} (xs : List α) (i : Nat) (hlen : xs.length ≤ c)
    (hi : i < xs.length) : (stateOf c xs).deref (i : Int) = xs[i]? := by
  unfold deref
  rw [if_pos (Int.natCast_nonneg i), Int.toNat_natCast]
  exact read_bufOf (by omega)

theorem traverse_forward_stateOf {α : Type} {c : Nat} (xs : List α) (hlen : xs.length ≤ c) :
    ∀ (n i fuel : Nat), i + n = xs.length → n < fuel →
      (stateOf c xs).traverse (xs.length : Int) fuel (i : Int) = some (none, xs.drop i)
  | 0, i, fuel + 1, h, _ => by
    have hi : i = xs.length := by omega
    unfold Vector.traverse
    rw [if_pos (by rw [hi]), hi, List.drop_length]
  | n + 1, i, fuel + 1, h, hf => by
    have hi : i < xs.length := by omega
    have hne : ¬ ((i : Int) = (xs.length : Int)) := by omega
    have ih := traverse_forward_stateOf xs hlen n (i + 1) fuel (by omega) (by omega)
    unfold Vector.traverse
    rw [if_neg hne, deref_stateOf xs i hlen hi, List.getElem?_eq_getElem hi]
    simp only
    rw [show ((i : Int) + 1) = ((i + 1 : Nat) : Int) by push_cast; rfl, ih]
    simp only
    rw [← List.drop_eq_getElem_cons hi]

theorem traverse_forward {α : Type} (s : Vector α) (hwf : s.WF) (fuel : Nat)
    (hf : s.size_ < fuel) :
    s.traverse s.end_ fuel s.begin = some (none, s.content) := by
  have hl := hwf.content_length
  have key := traverse_forward_stateOf s.content hwf.content_le s.size_ 0 fuel (by omega) hf
  rw [← hwf.eq_stateOf.1, hl] at key
  exact key

theorem traverse_up_never_returns {α : Type} (s : Vector α) :
    ∀ (fuel : Nat) (it : Int), 0 ≤ it → ∀ vs, s.traverse (-1) fuel it ≠ some (none, vs)
  | 0, _, _, _ => by
    unfold Vector.traverse
    simp
  | fuel + 1, it, hit, vs => by
    have hne : ¬ (it = -1) := by omega
    have ih := traverse_up_never_returns s fuel (it + 1) (by omega)
    unfold Vector.traverse
    rw [if_neg hne]
    cases s.deref it with
    | none => simp
    | some v =>
      simp only
      cases hrec : s.traverse (-1) fuel (it + 1) with
      | none => simp
      | some r =>
        obtain ⟨o, ws⟩ := r
        simp only
        intro heq
        simp only [Option.some.injEq, Prod.mk.injEq] at heq
        rw [heq.1] at hrec
        exact ih ws hrec

theorem reverse_traversal_never_returns {α : Type} (s : Vector α) (hs : 0 < s.size_)
    (fuel : Nat) (vs : List α) :
    s.traverse s.rend fuel s.rbegin ≠ some (none, vs) := by
  have h0 : (0 : Int) ≤ s.rbegin := by
    unfold rbegin
    omega
  exact traverse_up_never_returns s fuel s.rbegin h0 vs

/-! What a call leaves of the blocks of other objects -/

theorem Heap.Keeps.refl {α : Type} (a : Nat) (m : Heap α) : Heap.Keeps a m m :=
  ⟨le_refl _, rfl⟩

theorem Heap.Keeps.trans {α : Type} {a : Nat} {m m' m'' : Heap α}
    (h1 : Heap.Keeps a m m') (h2 : Heap.Keeps a m' m'') : Heap.Keeps a m m'' :=
  ⟨le_trans h1.1 h2.1, h2.2.trans h1.2⟩

theorem Heap.keeps_onBlock {α : Type} (a : Nat) (m : Heap α) (p : Ptr)
    (f : Buf α → Option Failure × Buf α) (hp : p ≠ some a) :
    Heap.Keeps a m (Heap.onBlock m p f).2 := by
  unfold Heap.onBlock
  cases p with
  | none => exact Heap.Keeps.refl a m
  | some b =>
    have hba : b ≠ a := fun h => hp (by rw [h])
    simp only
    split
    · refine ⟨?_, ?_⟩
      · simp only [List.length_set, le_refl]
      · simp only
        rw [List.getElem?_set_ne hba]
    · exact Heap.Keeps.refl a m

theorem Heap.keeps_construct {α : Type} (a : Nat) (m : Heap α) (p : Ptr) (i : Nat) (v : α)
    (hp : p ≠ some a) : Heap.Keeps a m (Heap.construct m p i v).2 :=
  Heap.keeps_onBlock a m p _ hp

theorem Heap.keeps_destroy {α : Type} (a : Nat) (m : Heap α) (p : Ptr) (i : Nat)
    (hp : p ≠ some a) : Heap.Keeps a m (Heap.destroy m p i).2 :=
  Heap.keeps_onBlock a m p _ hp

theorem Heap.keeps_assign {α : Type} (a : Nat) (m : Heap α) (p : Ptr) (i : Nat) (v : α)
    (hp : p ≠ some a) : Heap.Keeps a m (Heap.assign m p i v).2 :=
  Heap.keeps_onBlock a m p _ hp

theorem Heap.keeps_deallocate {α : Type} (a : Nat) (m : Heap α) (p : Ptr) (hp : p ≠ some a) :
    Heap.Keeps a m (Heap.deallocate m p) := by
  unfold Heap.deallocate
  cases p with
  | none => exact Heap.Keeps.refl a m
  | some b =>
    have hba : b ≠ a := fun h => hp (by rw [h])
    refine ⟨?_, ?_⟩
    · simp only [List.length_set, le_refl]
    · simp only
      rw [List.getElem?_set_ne hba]

theorem Heap.keeps_allocate {α : Type} (A : Nat → Bool) (n : Nat) (m m1 : Heap α) (q : Ptr)
    (h : Heap.allocate A n m = some (m1, q)) :
    q = some m.length ∧ m1.length = m.length + 1 ∧ ∀ a, a < m.length → Heap.Keeps a m m1 := by
  unfold Heap.allocate at h
  split_ifs at h
  simp only [Option.some.injEq, Prod.mk.injEq] at h
  obtain ⟨h1, h2⟩ := h
  subst h1
  refine ⟨h2.symm, by simp, fun a ha => ⟨by simp, ?_⟩⟩
  rw [List.getElem?_append_left ha]

theorem Heap.keeps_forUp {α σ : Type} (a : Nat) (proj : σ → Heap α)
    (body : Nat → σ → Option Failure × σ)
    (hb : ∀ i x, Heap.Keeps a (proj x) (proj (body i x).2)) :
    ∀ (n i : Nat) (x : σ), Heap.Keeps a (proj x) (proj (forUp body n i x).2)
  | 0, _, x => Heap.Keeps.refl a (proj x)
  | n + 1, i, x => by
    have h1 := hb i x
    unfold forUp
    cases hbody : body i x with
    | mk r x' =>
      rw [hbody] at h1
      cases r with
      | none => exact h1.trans (Heap.keeps_forUp a proj body hb n (i + 1) x')
      | some e => exact h1

theorem Heap.keeps_forDown {α σ : Type} (a : Nat) (proj : σ → Heap α)
    (body : Nat → σ → Option Failure × σ)
    (hb : ∀ i x, Heap.Keeps a (proj x) (proj (body i x).2)) :
    ∀ (n i : Nat) (x : σ), Heap.Keeps a (proj x) (proj (forDown body n i x).2)
  | 0, _, x => Heap.Keeps.refl a (proj x)
  | n + 1, i, x => by
    have h1 := hb i x
    unfold forDown
    cases hbody : body i x with
    | mk r x' =>
      rw [hbody] at h1
      cases r with
      | none => exact h1.trans (Heap.keeps_forDown a proj body hb n (i - 1) x')
      | some e => exact h1

theorem Heap.keeps_move {α : Type} (a : Nat) (src dst : Ptr) (i j k : Nat) (m : Heap α)
    (hs : src ≠ some a) (hd : dst ≠ some a) :
    Heap.Keeps a m
      (match Heap.read m src i with
        | none => (some Failure.undefined, m)
        | some v =>
          match Heap.construct m dst j v with
          | (some e, m1) => (some e, m1)
          | (none, m1) => Heap.destroy m1 src k).2 := by
  cases Heap.read m src i with
  | none => exact Heap.Keeps.refl a m
  | some v =>
    simp only
    have h1 := Heap.keeps_construct a m dst j v hd
    cases hc : Heap.construct m dst j v with
    | mk r m1 =>
      rw [hc] at h1
      cases r with
      | none => exact h1.trans (Heap.keeps_destroy a m1 src k hs)
      | some e => exact h1

theorem Heap.keeps_reserve_body {α : Type} (a : Nat) (data_ new_data : Ptr) (i : Nat)
    (m : Heap α) (hs : data_ ≠ some a) (hd : new_data ≠ some a) :
    Heap.Keeps a m (Heap.reserve_body data_ new_data i m).2 :=
  Heap.keeps_move a data_ new_data i i i m hs hd

theorem Heap.keeps_insert_body {α : Type} (a : Nat) (data_ : Ptr) (i : Nat)
    (m : Heap α) (hs : data_ ≠ some a) :
    Heap.Keeps a m (Heap.insert_body data_ i m).2 :=
  Heap.keeps_move a data_ data_ (i - 1) i (i - 1) m hs hs

theorem Heap.keeps_erase_body {α : Type} (a : Nat) (data_ : Ptr) (i : Nat)
    (m : Heap α) (hs : data_ ≠ some a) :
    Heap.Keeps a m (Heap.erase_body data_ i m).2 :=
  Heap.keeps_move a data_ data_ (i + 1) i (i + 1) m hs hs

theorem Heap.keeps_erase_range_body {α : Type} (a : Nat) (data_ : Ptr) (i : Nat)
    (st : Nat × Heap α) (hs : data_ ≠ some a) :
    Heap.Keeps a st.2 (Heap.erase_range_body data_ i st).2.2 := by
  unfold Heap.erase_range_body
  cases Heap.read st.2 data_ i with
  | none => exact Heap.Keeps.refl a st.2
  | some v =>
    simp only
    have h1 := Heap.keeps_construct a st.2 data_ st.1 v hs
    cases hc : Heap.construct st.2 data_ st.1 v with
    | mk r m1 =>
      rw [hc] at h1
      cases r with
      | none => exact h1.trans (Heap.keeps_destroy a m1 data_ i hs)
      | some e => exact h1

theorem Heap.keeps_copy_body {α : Type} (a : Nat) (src dst : Ptr) (i : Nat)
    (m : Heap α) (hd : dst ≠ some a) :
    Heap.Keeps a m (Heap.copy_body src dst i m).2 := by
  unfold Heap.copy_body
  cases Heap.read m src i with
  | none => exact Heap.Keeps.refl a m
  | some v => exact Heap.keeps_construct a m dst i v hd

theorem Heap.keeps_reserve {α : Type} (A : Nat → Bool) (cap : Nat) (m : Heap α) (o : Obj)
    (a : Nat) (ho : o.data_ ≠ some a) (ha : a < m.length) :
    Heap.Keeps a m (Heap.reserve A cap m o).2.1 ∧ (Heap.reserve A cap m o).2.2.data_ ≠ some a := by
  unfold Heap.reserve
  by_cases hcap : cap > o.capacity_
  · rw [if_pos hcap]
    cases halloc : Heap.allocate A cap m with
    | none => exact ⟨Heap.Keeps.refl a m, ho⟩
    | some r =>
      obtain ⟨m1, q⟩ := r
      obtain ⟨hq, _, hk⟩ := Heap.keeps_allocate A cap m m1 q halloc
      have hqa : q ≠ some a := by
        rw [hq]
        intro h
        simp only [Option.some.injEq] at h
        omega
      have hloop := Heap.keeps_forUp a id (Heap.reserve_body o.data_ q)
        (fun i x => Heap.keeps_reserve_body a o.data_ q i x ho hqa) o.size_ 0 m1
      simp only [id] at hloop
      simp only
      cases hl : forUp (Heap.reserve_body o.data_ q) o.size_ 0 m1 with
      | mk r m2 =>
        rw [hl] at hloop
        cases r with
        | some e => exact ⟨(hk a ha).trans hloop, ho⟩
        | none =>
          exact ⟨((hk a ha).trans hloop).trans (Heap.keeps_deallocate a m2 o.data_ ho), hqa⟩
  · rw [if_neg hcap]
    exact ⟨Heap.Keeps.refl a m, ho⟩

theorem Heap.keeps_grow {α : Type} (A : Nat → Bool) (m : Heap α) (o : Obj)
    (a : Nat) (ho : o.data_ ≠ some a) (ha : a < m.length)
    (r : Option Failure × Heap α × Obj)
    (hr : (if o.size_ = o.capacity_ then Heap.reserve A (grown o.capacity_) m o
      else (none, m, o)) = r) :
    Heap.Keeps a m r.2.1 ∧ r.2.2.data_ ≠ some a := by
  subst hr
  split_ifs
  · exact Heap.keeps_reserve A _ m o a ho ha
  · exact ⟨Heap.Keeps.refl a m, ho⟩

theorem Heap.keeps_insert {α : Type} (A : Nat → Bool) (index : Nat) (value : Ref α) (m : Heap α)
    (o : Obj) (a : Nat) (ho : o.data_ ≠ some a) (ha : a < m.length) :
    Heap.Keeps a m (Heap.insert A index value m o).2.1 := by
  unfold Heap.insert
  by_cases h0 : index > o.size_
  · rw [if_pos h0]
    exact Heap.Keeps.refl a m
  · rw [if_neg h0]
    generalize hg : (if o.size_ = o.capacity_ then Heap.reserve A (grown o.capacity_) m o
      else (none, m, o)) = r
    obtain ⟨hk, hd⟩ := Heap.keeps_grow A m o a ho ha r hg
    obtain ⟨e, m1, o1⟩ := r
    cases e with
    | some e => exact hk
    | none =>
      simp only at hk hd ⊢
      have hloop := Heap.keeps_forDown a id (Heap.insert_body o1.data_)
        (fun i x => Heap.keeps_insert_body a o1.data_ i x hd) (o1.size_ - index) o1.size_ m1
      simp only [id] at hloop
      cases hl : forDown (Heap.insert_body o1.data_) (o1.size_ - index) o1.size_ m1 with
      | mk r m2 =>
        rw [hl] at hloop
        cases r with
        | some e => exact hk.trans hloop
        | none =>
          simp only
          cases Heap.readRef m2 value with
          | none => exact hk.trans hloop
          | some x =>
            simp only
            have hc := Heap.keeps_construct a m2 o1.data_ index x hd
            cases hcc : Heap.construct m2 o1.data_ index x with
            | mk r3 m3 =>
              rw [hcc] at hc
              cases r3 with
              | some e => exact (hk.trans hloop).trans hc
              | none => exact (hk.trans hloop).trans hc

theorem Heap.keeps_push_back {α : Type} (A : Nat → Bool) (v : Ref α) (m : Heap α)
    (o : Obj) (a : Nat) (ho : o.data_ ≠ some a) (ha : a < m.length) :
    Heap.Keeps a m (Heap.push_back A v m o).2.1 := by
  unfold Heap.push_back
  generalize hg : (if o.size_ = o.capacity_ then Heap.reserve A (grown o.capacity_) m o
    else (none, m, o)) = r
  obtain ⟨hk, hd⟩ := Heap.keeps_grow A m o a ho ha r hg
  obtain ⟨e, m1, o1⟩ := r
  cases e with
  | some e => exact hk
  | none =>
    simp only at hk hd ⊢
    cases Heap.readRef m1 v with
    | none => exact hk
    | some x =>
      simp only
      have hc := Heap.keeps_construct a m1 o1.data_ o1.size_ x hd
      cases hcc : Heap.construct m1 o1.data_ o1.size_ x with
      | mk r2 m2 =>
        rw [hcc] at hc
        cases r2 with
        | some e => exact hk.trans hc
        | none => exact hk.trans hc

theorem Heap.keeps_pop_back {α : Type} (m : Heap α) (o : Obj) (a : Nat)
    (ho : o.data_ ≠ some a) : Heap.Keeps a m (Heap.pop_back m o).2.1 := by
  unfold Heap.pop_back
  split_ifs
  · have hc := Heap.keeps_destroy a m o.data_ (o.size_ - 1) ho
    cases hcc : Heap.destroy m o.data_ (o.size_ - 1) with
    | mk r m1 =>
      rw [hcc] at hc
      cases r with
      | some e => exact hc
      | none => exact hc
  · exact Heap.Keeps.refl a m

theorem Heap.keeps_erase {α : Type} (index : Nat) (m : Heap α) (o : Obj) (a : Nat)
    (ho : o.data_ ≠ some a) : Heap.Keeps a m (Heap.erase index m o).2.1 := by
  unfold Heap.erase
  split_ifs
  · exact Heap.Keeps.refl a m
  · have hc := Heap.keeps_destroy a m o.data_ index ho
    cases hcc : Heap.destroy m o.data_ index with
    | mk r m1 =>
      rw [hcc] at hc
      cases r with
      | some e => exact hc
      | none =>
        simp only
        have hloop := Heap.keeps_forUp a id (Heap.erase_body o.data_)
          (fun i x => Heap.keeps_erase_body a o.data_ i x ho) (o.size_ - 1 - index) index m1
        simp only [id] at hloop
        cases hl : forUp (Heap.erase_body o.data_) (o.size_ - 1 - index) index m1 with
        | mk r2 m2 =>
          rw [hl] at hloop
          cases r2 with
          | some e => exact hc.trans hloop
          | none => exact hc.trans hloop

theorem Heap.keeps_erase_range {α : Type} (first last : Nat) (m : Heap α) (o : Obj) (a : Nat)
    (ho : o.data_ ≠ some a) : Heap.Keeps a m (Heap.erase_range first last m o).2.1 := by
  unfold Heap.erase_range
  split_ifs
  · exact Heap.Keeps.refl a m
  · simp only
    have hl1 := Heap.keeps_forUp a id (fun i (m' : Heap α) => Heap.destroy m' o.data_ i)
      (fun i x => Heap.keeps_destroy a x o.data_ i ho) (last - first) first m
    simp only [id] at hl1
    cases h1 : forUp (fun i (m' : Heap α) => Heap.destroy m' o.data_ i) (last - first) first m with
    | mk r m1 =>
      rw [h1] at hl1
      cases r with
      | some e => exact hl1
      | none =>
        simp only
        have hl2 := Heap.keeps_forUp a (fun st : Nat × Heap α => st.2)
          (Heap.erase_range_body o.data_)
          (fun i x => Heap.keeps_erase_range_body a o.data_ i x ho) (o.size_ - last) last
          (first, m1)
        simp only at hl2
        cases h2 : forUp (Heap.erase_range_body o.data_) (o.size_ - last) last (first, m1) with
        | mk r2 st =>
          rw [h2] at hl2
          cases r2 with
          | some e => exact hl1.trans hl2
          | none => exact hl1.trans hl2

theorem Heap.keeps_clear {α : Type} (m : Heap α) (o : Obj) (a : Nat)
    (ho : o.data_ ≠ some a) : Heap.Keeps a m (Heap.clear m o).2.1 := by
  unfold Heap.clear
  have hl1 := Heap.keeps_forUp a id (fun i (m' : Heap α) => Heap.destroy m' o.data_ i)
    (fun i x => Heap.keeps_destroy a x o.data_ i ho) o.size_ 0 m
  simp only [id] at hl1
  cases h1 : forUp (fun i (m' : Heap α) => Heap.destroy m' o.data_ i) o.size_ 0 m with
  | mk r m1 =>
    rw [h1] at hl1
    cases r with
    | some e => exact hl1
    | none => exact hl1

theorem Heap.keeps_subscript_assign {α : Type} (index : Nat) (value : α) (m : Heap α) (o : Obj)
    (a : Nat) (ho : o.data_ ≠ some a) :
    Heap.Keeps a m (Heap.subscript_assign index value m o).2.1 := by
  unfold Heap.subscript_assign
  split_ifs
  · exact Heap.Keeps.refl a m
  · exact Heap.keeps_assign a m o.data_ index value ho

theorem Heap.keeps_copy {α : Type} (A : Nat → Bool) (m m1 : Heap α) (other c : Obj)
    (h : Heap.copy A m other = Except.ok (m1, c)) :
    c.data_ = some m.length ∧ c.size_ = other.size_ ∧ c.capacity_ = other.capacity_ ∧
    m.length < m1.length ∧ ∀ a, a < m.length → Heap.Keeps a m m1 := by
  unfold Heap.copy at h
  cases halloc : Heap.allocate A other.capacity_ m with
  | none =>
    rw [halloc] at h
    cases h
  | some r =>
    obtain ⟨m0, q⟩ := r
    obtain ⟨hq, hlen, hk⟩ := Heap.keeps_allocate A other.capacity_ m m0 q halloc
    rw [halloc] at h
    simp only at h
    cases hl : forUp (Heap.copy_body other.data_ q) other.size_ 0 m0 with
    | mk r2 m2 =>
      rw [hl] at h
      cases r2 with
      | some e => cases h
      | none =>
        simp only [Except.ok.injEq, Prod.mk.injEq] at h
        obtain ⟨h1, h2⟩ := h
        subst h1 h2
        have hloop : ∀ a, a < m.length → Heap.Keeps a m0 m2 := by
          intro a ha
          have hqa : q ≠ some a := by
            rw [hq]
            intro h
            simp only [Option.some.injEq] at h
            omega
          have := Heap.keeps_forUp a id (Heap.copy_body other.data_ q)
            (fun i x => Heap.keeps_copy_body a other.data_ q i x hqa) other.size_ 0 m0
          simp only [id] at this
          rw [hl] at this
          exact this
        refine ⟨hq, rfl, rfl, ?_, fun a ha => (hk a ha).trans (hloop a ha)⟩
        have hq1 : q ≠ some (m.length + 1) := by
          rw [hq]
          intro h
          simp only [Option.some.injEq] at h
          omega
        have hmono := Heap.keeps_forUp (m.length + 1) id (Heap.copy_body other.data_ q)
          (fun i x => Heap.keeps_copy_body (m.length + 1) other.data_ q i x hq1) other.size_ 0 m0
        simp only [id] at hmono
        rw [hl] at hmono
        have hm2 : m0.length ≤ m2.length := hmono.1
        omega

theorem Heap.view_of_keeps {α : Type} (m m' : Heap α) (o : Obj)
    (h : ∀ a, o.data_ = some a → Heap.Keeps a m m') : Heap.view m' o = Heap.view m o := by
  unfold Heap.view Heap.block
  cases hd : o.data_ with
  | none => rfl
  | some a =>
    simp only
    rw [(h a hd).2]

/-! The copy constructor in the store and on values -/

theorem Heap.block_append_left {α : Type} (m : Heap α) (d : Buf α) (a : Nat) (b : Buf α)
    (hb : m[a]? = some (some b)) : Heap.block (m ++ [some d]) (some a) = some b := by
  have ha : a < m.length := by
    by_contra h
    rw [List.getElem?_eq_none (by omega)] at hb
    cases hb
  unfold Heap.block
  simp only
  rw [List.getElem?_append_left ha, hb]

theorem Heap.onBlock_last {α : Type} (m : Heap α) (d : Buf α)
    (f : Buf α → Option Failure × Buf α) :
    Heap.onBlock (m ++ [some d]) (some m.length) f = ((f d).1, m ++ [some (f d).2]) := by
  unfold Heap.onBlock
  simp only
  rw [List.getElem?_append_right (le_refl _), Nat.sub_self]
  simp only [List.getElem?_cons_zero]
  rw [List.set_append_right _ _ (le_refl _), Nat.sub_self]
  rfl

theorem Heap.copy_loop_eq {α : Type} (m : Heap α) (other : Vector α) (a : Nat)
    (hb : m[a]? = some (some other.data_)) :
    ∀ (n i : Nat) (d : Buf α),
      forUp (Heap.copy_body (some a) (some m.length)) n i (m ++ [some d]) =
        ((forUp (Vector.copy_body other) n i d).1, m ++ [some (forUp (Vector.copy_body other) n i d).2])
  | 0, _, _ => rfl
  | n + 1, i, d => by
    have hr : Heap.read (m ++ [some d]) (some a) i = other.data_.read i := by
      unfold Heap.read
      rw [Heap.block_append_left m d a other.data_ hb]
    unfold forUp
    unfold Heap.copy_body Vector.copy_body
    rw [hr]
    cases other.data_.read i with
    | none => rfl
    | some v =>
      simp only
      unfold Heap.construct
      rw [Heap.onBlock_last]
      cases hc : d.construct i v with
      | mk r d' =>
        cases r with
        | some e => rfl
        | none =>
          simp only
          exact Heap.copy_loop_eq m other a hb n (i + 1) d'

theorem Heap.view_of_block {α : Type} (m : Heap α) (o : Obj) (a : Nat) (s : Vector α)
    (ho : o.data_ = some a) (hs : Heap.view m o = s) (hblk : ∃ b, m[a]? = some (some b)) :
    m[a]? = some (some s.data_) ∧ s.size_ = o.size_ ∧ s.capacity_ = o.capacity_ := by
  obtain ⟨b, hb⟩ := hblk
  subst hs
  unfold Heap.view Heap.block
  rw [ho]
  simp only [hb, Option.getD_some, and_self]

theorem Heap.copy_of_view {α : Type} (A : Nat → Bool) (m : Heap α) (o : Obj) (a : Nat)
    (s : Vector α) (ho : o.data_ = some a) (hblk : ∃ b, m[a]? = some (some b))
    (hs : Heap.view m o = s) (hwf : s.WF) (hA : A s.capacity_ = true) :
    Heap.copy A m o = Except.ok (m ++ [some s.data_],
      { size_ := o.size_, capacity_ := o.capacity_, data_ := some m.length }) := by
  obtain ⟨hb, hsz, hcap⟩ := Heap.view_of_block m o a s ho hs hblk
  have hval := copy_wf A s hwf hA
  unfold Vector.copy TestTask.allocate at hval
  rw [hA] at hval
  simp only [if_true] at hval
  unfold Heap.copy Heap.allocate
  rw [← hcap, hA]
  simp only [if_true]
  rw [ho, ← hsz, Heap.copy_loop_eq m s a hb s.size_ 0 (List.replicate s.capacity_ none)]
  cases hl : forUp (Vector.copy_body s) s.size_ 0 (List.replicate s.capacity_ none) with
  | mk r d =>
    rw [hl] at hval
    cases r with
    | some e =>
      simp only at hval
      cases hval
    | none =>
      simp only [Except.ok.injEq] at hval
      have hd : d = s.data_ := congrArg Vector.data_ hval
      simp only [hd]

/-! Where `bad_alloc` comes from -/

theorem MemOutcome.ne_bad_alloc {o : Option Failure} (h : MemOutcome o) :
    o ≠ some Failure.bad_alloc := by
  rcases h with h | h <;> rw [h] <;> simp

theorem reserve_bad_alloc_iff {α : Type} (A : Nat → Bool) (cap : Nat) (s : Vector α) :
    (reserve A cap s).1 = some Failure.bad_alloc ↔ (cap > s.capacity_ ∧ A cap = false) := by
  constructor
  · intro h
    by_cases hcap : cap > s.capacity_
    · refine ⟨hcap, ?_⟩
      cases hA : A cap with
      | false => rfl
      | true =>
        exfalso
        unfold reserve allocate at h
        rw [if_pos hcap] at h
        simp only [hA, if_true] at h
        have hm := (forUp_mem reserve_body reserve_body_mem s.size_ 0
          (s.data_, List.replicate cap none)).ne_bad_alloc
        generalize forUp reserve_body s.size_ 0 (s.data_, List.replicate cap none) = r at hm h
        obtain ⟨o, st⟩ := r
        cases o with
        | none => simp at h
        | some e => exact hm h
    · exfalso
      unfold reserve at h
      rw [if_neg hcap] at h
      simp at h
  · intro h
    rw [reserve_refused A cap s h.1 h.2]

theorem grow_bad_alloc_iff {α : Type} (A : Nat → Bool) (s : Vector α) :
    (if s.size_ = s.capacity_ then reserve A (grown s.capacity_) s else (none, s)).1 =
        some Failure.bad_alloc ↔
      (s.size_ = s.capacity_ ∧ A (grown s.capacity_) = false) := by
  by_cases hfull : s.size_ = s.capacity_
  · rw [if_pos hfull, reserve_bad_alloc_iff]
    constructor
    · exact fun h => ⟨hfull, h.2⟩
    · exact fun h => ⟨lt_grown _, h.2⟩
  · rw [if_neg hfull]
    constructor
    · intro h
      simp at h
    · exact fun h => absurd h.1 hfull

theorem push_back_bad_alloc_iff {α : Type} (A : Nat → Bool) (v : Arg α) (s : Vector α) :
    (push_back A v s).1 = some Failure.bad_alloc ↔
      (s.size_ = s.capacity_ ∧ A (grown s.capacity_) = false) := by
  constructor
  · intro h
    rw [← grow_bad_alloc_iff]
    unfold push_back at h
    generalize (if s.size_ = s.capacity_ then reserve A (grown s.capacity_) s
      else (none, s)) = r at h ⊢
    obtain ⟨o, s1⟩ := r
    cases o with
    | some e => exact h
    | none =>
      exfalso
      simp only at h
      cases hread : v.read (decide (s.size_ = s.capacity_)) s1.data_ with
      | none =>
        rw [hread] at h
        simp at h
      | some x =>
        rw [hread] at h
        simp only at h
        have hc := (construct_mem s1.data_ s1.size_ x).ne_bad_alloc
        generalize s1.data_.construct s1.size_ x = r2 at hc h
        obtain ⟨o2, d'⟩ := r2
        cases o2 with
        | some e => exact hc h
        | none => simp at h
  · intro h
    rw [push_back_refused A v s h.1 h.2]

theorem insert_bad_alloc_iff {α : Type} (A : Nat → Bool) (index : Nat) (v : Arg α)
    (s : Vector α) :
    (insert A index v s).1 = some Failure.bad_alloc ↔
      (index ≤ s.size_ ∧ s.size_ = s.capacity_ ∧ A (grown s.capacity_) = false) := by
  constructor
  · intro h
    by_cases hi : index ≤ s.size_
    · refine ⟨hi, ?_⟩
      rw [← grow_bad_alloc_iff]
      unfold Vector.insert at h
      rw [if_neg (by omega)] at h
      generalize (if s.size_ = s.capacity_ then reserve A (grown s.capacity_) s
        else (none, s)) = r at h ⊢
      obtain ⟨o, s1⟩ := r
      cases o with
      | some e => exact h
      | none =>
        exfalso
        simp only at h
        have hm := (forDown_mem insert_body insert_body_mem (s1.size_ - index) s1.size_
          s1.data_).ne_bad_alloc
        generalize forDown insert_body (s1.size_ - index) s1.size_ s1.data_ = r1 at hm h
        obtain ⟨o1, d⟩ := r1
        cases o1 with
        | some e => exact hm h
        | none =>
          simp only at h
          cases hread : v.read (decide (s.size_ = s.capacity_)) d with
          | none =>
            rw [hread] at h
            simp at h
          | some x =>
            rw [hread] at h
            simp only at h
            have hc := (construct_mem d index x).ne_bad_alloc
            generalize d.construct index x = r2 at hc h
            obtain ⟨o2, d'⟩ := r2
            cases o2 with
            | some e => exact hc h
            | none => simp at h
    · exfalso
      unfold Vector.insert at h
      rw [if_pos (by omega)] at h
      simp at h
  · intro h
    rw [insert_refused A index v s h.1 h.2.1 h.2.2]

theorem Heap.reserve_refusal {α : Type} (A : Nat → Bool) (cap : Nat) (m : Heap α) (o : Obj)
    (hcap : cap > o.capacity_) (hA : A cap = false) :
    Heap.reserve A cap m o = (some Failure.bad_alloc, m, o) := by
  unfold Heap.reserve Heap.allocate
  rw [if_pos hcap]
  simp [hA]

theorem Heap.push_back_refusal {α : Type} (A : Nat → Bool) (v : Ref α) (m : Heap α) (o : Obj)
    (hfull : o.size_ = o.capacity_) (hA : A (grown o.capacity_) = false) :
    Heap.push_back A v m o = (some Failure.bad_alloc, m, o) := by
  unfold Heap.push_back
  rw [if_pos hfull, Heap.reserve_refusal A _ m o (lt_grown _) hA]

theorem Heap.insert_refusal {α : Type} (A : Nat → Bool) (index : Nat) (v : Ref α) (m : Heap α)
    (o : Obj) (hi : index ≤ o.size_) (hfull : o.size_ = o.capacity_)
    (hA : A (grown o.capacity_) = false) :
    Heap.insert A index v m o = (some Failure.bad_alloc, m, o) := by
  unfold Heap.insert
  rw [if_neg (by omega), if_pos hfull, Heap.reserve_refusal A _ m o (lt_grown _) hA]

/-! What holds for arguments that are not elements of the container -/

theorem grow_wf {α : Type} (A : Nat → Bool) (s : Vector α) (hwf : s.WF)
    (hA : s.size_ = s.capacity_ → A (grown s.capacity_) = true) :
    (if s.size_ = s.capacity_ then reserve A (grown s.capacity_) s else (none, s)) =
      (none, stateOf (if s.size_ = s.capacity_ then grown s.capacity_ else s.capacity_)
        s.content) := by
  by_cases hfull : s.size_ = s.capacity_
  · rw [if_pos hfull, if_pos hfull, reserve_wf A s _ hwf (lt_grown _) (hA hfull)]
  · rw [if_neg hfull, if_neg hfull, ← hwf.eq_stateOf.1]

/-- On a valid state, `insert(index, v)` with `index <= size`, for an argument
that is an object outside the buffer, returns normally (the growth step, when
there is one, being granted its block) and leaves a valid state whose content
is the first `index` elements, then `v`, then the remaining elements, with
`size` one larger; the statement covers the call that grows and the call that
does not. -/
theorem insert_outside_value {α : Type} (A : Nat → Bool) (s : Vector α) (index : Nat) (v : α)
    (hwf : s.WF) (hi : index ≤ s.size_)
    (hA : s.size_ = s.capacity_ → A (grown s.capacity_) = true) :
    (insert A index (Arg.val v) s).1 = none ∧ (insert A index (Arg.val v) s).2.WF ∧
    (insert A index (Arg.val v) s).2.content =
      s.content.take index ++ [v] ++ s.content.drop index ∧
    (insert A index (Arg.val v) s).2.size_ = s.size_ + 1 := by
  have hlen : (s.content.take index ++ [v] ++ s.content.drop index).length = s.size_ + 1 := by
    rw [length_insert, hwf.content_length]
  have hc := grown_target_gt s hwf.2.1
  rw [insert_wf A s index v hwf hi hA]
  refine ⟨rfl, wf_stateOf (by omega), content_stateOf (by omega), hlen⟩

/-- On a valid state, `push_back(v)`, for an argument that is an object outside
the buffer, returns normally (the growth step, when there is one, being
granted its block) and leaves a valid state whose content is the old content
followed by `v`, with `size` one larger, whether or not the call grows the
block.  Hence pushing the elements of a list `xs` of such objects in order onto
a default-constructed container runs to its end and gives size `length xs`
and content `xs`. -/
theorem push_back_outside_value {α : Type} (A : Nat → Bool) (s : Vector α) (v : α)
    (xs : List α) (hwf : s.WF) (hA : s.size_ = s.capacity_ → A (grown s.capacity_) = true) :
    (push_back A (Arg.val v) s).1 = none ∧ (push_back A (Arg.val v) s).2.WF ∧
    (push_back A (Arg.val v) s).2.content = s.content ++ [v] ∧
    (push_back A (Arg.val v) s).2.size_ = s.size_ + 1 ∧
    ((∀ n, A n = true) →
      (push_all A xs new).1 = none ∧ (push_all A xs new).2.size_ = xs.length ∧
      (push_all A xs new).2.content = xs) := by
  have hlen : (s.content ++ [v]).length = s.size_ + 1 := by
    rw [List.length_append, List.length_singleton, hwf.content_length]
  have hc := grown_target_gt s hwf.2.1
  rw [push_back_wf A s v hwf hA]
  refine ⟨rfl, wf_stateOf (by omega), content_stateOf (by omega), hlen, fun hrun => ?_⟩
  obtain ⟨c', h1, h2⟩ := push_all_stateOf A hrun xs [] 0 (le_refl _)
  rw [List.nil_append] at h1 h2
  rw [new_eq_stateOf, h2]
  exact ⟨rfl, rfl, content_stateOf h1⟩

/-- On a valid state none of `reserve`, `insert`, `push_back`, `pop_back`,
`erase(index)`, `erase(first, last)`, `clear` takes an undefined step (a
construct outside the block or over a live slot, a read or a destroy of a slot
that is not live), whatever the allocator answers, and each leaves a valid
state, provided the argument of `insert` and `push_back` is an object outside
the buffer. -/
theorem steps_valid_outside_value {α : Type} (A : Nat → Bool) (s : Vector α)
    (cap index first last : Nat) (v : α) (hwf : s.WF) :
    ((reserve A cap s).1 ≠ some Failure.undefined ∧ (reserve A cap s).2.WF) ∧
    ((insert A index (Arg.val v) s).1 ≠ some Failure.undefined ∧
      (insert A index (Arg.val v) s).2.WF) ∧
    ((push_back A (Arg.val v) s).1 ≠ some Failure.undefined ∧
      (push_back A (Arg.val v) s).2.WF) ∧
    ((pop_back s).1 ≠ some Failure.undefined ∧ (pop_back s).2.WF) ∧
    ((erase index s).1 ≠ some Failure.undefined ∧ (erase index s).2.WF) ∧
    ((erase_range first last s).1 ≠ some Failure.undefined ∧
      (erase_range first last s).2.WF) ∧
    ((clear s).1 ≠ some Failure.undefined ∧ (clear s).2.WF) :=
  ⟨reserve_valid A cap s hwf, insert_valid A index v s hwf, push_back_valid A v s hwf,
    pop_back_valid s hwf, erase_valid index s hwf, erase_range_valid first last s hwf,
    clear_valid s hwf⟩

/-- Copies built by the copy constructor.  Let `c` be the copy that the copy constructor builds of an object `v`
whose buffer, if it has one, is a block of the store.  Then `c` does not hold
the pointer of `v`, the copy has left `v` as it was, and each of `push_back`,
`pop_back`, `insert`, `erase(index)`, `erase(first, last)`, `clear`, `reserve`
and an element write through `operator[]`, applied to `c`, leaves the
container that `v` is (its size, capacity and buffer, hence its content) as it
was; the same calls applied to `v` leave the container that `c` is. -/
theorem copy_constructor_independence {α : Type} (A B : Nat → Bool) (m m1 : Heap α) (v c : Obj)
    (hv : ∀ a, v.data_ = some a → a < m.length)
    (hcopy : Heap.copy A m v = Except.ok (m1, c))
    (cap index first last : Nat) (x : α) (r : Ref α) :
    c.data_ ≠ v.data_ ∧ Heap.view m1 v = Heap.view m v ∧
    (Heap.view (Heap.push_back B r m1 c).2.1 v = Heap.view m1 v ∧
      Heap.view (Heap.pop_back m1 c).2.1 v = Heap.view m1 v ∧
      Heap.view (Heap.insert B index r m1 c).2.1 v = Heap.view m1 v ∧
      Heap.view (Heap.erase index m1 c).2.1 v = Heap.view m1 v ∧
      Heap.view (Heap.erase_range first last m1 c).2.1 v = Heap.view m1 v ∧
      Heap.view (Heap.clear m1 c).2.1 v = Heap.view m1 v ∧
      Heap.view (Heap.reserve B cap m1 c).2.1 v = Heap.view m1 v ∧
      Heap.view (Heap.subscript_assign index x m1 c).2.1 v = Heap.view m1 v) ∧
    (Heap.view (Heap.push_back B r m1 v).2.1 c = Heap.view m1 c ∧
      Heap.view (Heap.pop_back m1 v).2.1 c = Heap.view m1 c ∧
      Heap.view (Heap.insert B index r m1 v).2.1 c = Heap.view m1 c ∧
      Heap.view (Heap.erase index m1 v).2.1 c = Heap.view m1 c ∧
      Heap.view (Heap.erase_range first last m1 v).2.1 c = Heap.view m1 c ∧
      Heap.view (Heap.clear m1 v).2.1 c = Heap.view m1 c ∧
      Heap.view (Heap.reserve B cap m1 v).2.1 c = Heap.view m1 c ∧
      Heap.view (Heap.subscript_assign index x m1 v).2.1 c = Heap.view m1 c) := by
  obtain ⟨hc, _, _, hlt, hk⟩ := Heap.keeps_copy A m m1 v c hcopy
  have hne : c.data_ ≠ v.data_ := by
    intro h
    have := hv m.length (by rw [← h, hc])
    omega
  -- the block of `v` seen from a call on `c`
  have hcv : ∀ a, v.data_ = some a → c.data_ ≠ some a ∧ a < m1.length := by
    intro a ha
    have := hv a ha
    refine ⟨?_, by omega⟩
    rw [hc]
    intro h
    simp only [Option.some.injEq] at h
    omega
  -- the block of `c` seen from a call on `v`
  have hvc : ∀ a, c.data_ = some a → v.data_ ≠ some a ∧ a < m1.length := by
    intro a ha
    rw [hc] at ha
    simp only [Option.some.injEq] at ha
    subst ha
    refine ⟨?_, hlt⟩
    intro h
    have := hv _ h
    omega
  refine ⟨hne, Heap.view_of_keeps m m1 v (fun a ha => hk a (hv a ha)), ⟨?_, ?_, ?_, ?_, ?_, ?_, ?_, ?_⟩,
    ⟨?_, ?_, ?_, ?_, ?_, ?_, ?_, ?_⟩⟩
  · exact Heap.view_of_keeps _ _ v (fun a ha =>
      Heap.keeps_push_back B r m1 c a (hcv a ha).1 (hcv a ha).2)
  · exact Heap.view_of_keeps _ _ v (fun a ha => Heap.keeps_pop_back m1 c a (hcv a ha).1)
  · exact Heap.view_of_keeps _ _ v (fun a ha =>
      Heap.keeps_insert B index r m1 c a (hcv a ha).1 (hcv a ha).2)
  · exact Heap.view_of_keeps _ _ v (fun a ha => Heap.keeps_erase index m1 c a (hcv a ha).1)
  · exact Heap.view_of_keeps _ _ v (fun a ha =>
      Heap.keeps_erase_range first last m1 c a (hcv a ha).1)
  · exact Heap.view_of_keeps _ _ v (fun a ha => Heap.keeps_clear m1 c a (hcv a ha).1)
  · exact Heap.view_of_keeps _ _ v (fun a ha =>
      (Heap.keeps_reserve B cap m1 c a (hcv a ha).1 (hcv a ha).2).1)
  · exact Heap.view_of_keeps _ _ v (fun a ha =>
      Heap.keeps_subscript_assign index x m1 c a (hcv a ha).1)
  · exact Heap.view_of_keeps _ _ c (fun a ha =>
      Heap.keeps_push_back B r m1 v a (hvc a ha).1 (hvc a ha).2)
  · exact Heap.view_of_keeps _ _ c (fun a ha => Heap.keeps_pop_back m1 v a (hvc a ha).1)
  · exact Heap.view_of_keeps _ _ c (fun a ha =>
      Heap.keeps_insert B index r m1 v a (hvc a ha).1 (hvc a ha).2)
  · exact Heap.view_of_keeps _ _ c (fun a ha => Heap.keeps_erase index m1 v a (hvc a ha).1)
  · exact Heap.view_of_keeps _ _ c (fun a ha =>
      Heap.keeps_erase_range first last m1 v a (hvc a ha).1)
  · exact Heap.view_of_keeps _ _ c (fun a ha => Heap.keeps_clear m1 v a (hvc a ha).1)
  · exact Heap.view_of_keeps _ _ c (fun a ha =>
      (Heap.keeps_reserve B cap m1 v a (hvc a ha).1 (hvc a ha).2).1)
  · exact Heap.view_of_keeps _ _ c (fun a ha =>
      Heap.keeps_subscript_assign index x m1 v a (hvc a ha).1)

/-- The same on the store that holds `[10, 20, 30]`: the copy takes the block at
address 1; a `push_back`, a `clear` and an element write on the copy leave the
original `[10, 20, 30]`, and a `clear` of the original leaves the copy
`[10, 20, 30]`. -/
theorem copy_constructor_independence_demo :
    Heap.copy (fun _ => true) demoHeap demoObj = Except.ok (demoHeap2, demoCopy) ∧
    demoCopy.data_ ≠ demoObj.data_ ∧
    (Heap.push_back (fun _ => true) (Ref.val 7) demoHeap2 demoCopy).1 = none ∧
    (Heap.view (Heap.push_back (fun _ => true) (Ref.val 7) demoHeap2 demoCopy).2.1 demoObj).content =
      [10, 20, 30] ∧
    (Heap.view (Heap.clear demoHeap2 demoCopy).2.1 demoObj).content = [10, 20, 30] ∧
    (Heap.view (Heap.subscript_assign 0 7 demoHeap2 demoCopy).2.1 demoObj).content =
      [10, 20, 30] ∧
    (Heap.view (Heap.subscript_assign 0 7 demoHeap2 demoCopy).2.1 demoCopy).content =
      [7, 20, 30] ∧
    (Heap.view (Heap.clear demoHeap2 demoObj).2.1 demoCopy).content = [10, 20, 30] :=
  ⟨rfl,
    (copy_constructor_independence (fun _ => true) (fun _ => true) demoHeap demoHeap2 demoObj
      demoCopy (by decide) rfl 8 0 0 1 7 (Ref.val 7)).1,
    by decide,
    congrArg content (copy_constructor_independence (fun _ => true) (fun _ => true) demoHeap
      demoHeap2 demoObj demoCopy (by decide) rfl 8 0 0 1 7 (Ref.val 7)).2.2.1.1,
    congrArg content (copy_constructor_independence (fun _ => true) (fun _ => true) demoHeap
      demoHeap2 demoObj demoCopy (by decide) rfl 8 0 0 1 7 (Ref.val 7)).2.2.1.2.2.2.2.2.1,
    congrArg content (copy_constructor_independence (fun _ => true) (fun _ => true) demoHeap
      demoHeap2 demoObj demoCopy (by decide) rfl 8 0 0 1 7 (Ref.val 7)).2.2.1.2.2.2.2.2.2.2,
    by decide,
    congrArg content (copy_constructor_independence (fun _ => true) (fun _ => true) demoHeap
      demoHeap2 demoObj demoCopy (by decide) rfl 8 0 0 1 7 (Ref.val 7)).2.2.2.2.2.2.2.2.1⟩


/-! The contract -/

/-- C1, at the container `[10, 20, 30]` of capacity 4 and the call
`v.insert(0, v[2])`, whose argument is the value 30.  The specification gives
`[30, 10, 20, 30]`.  The code shifts the elements first and reads the reference
afterwards, when slot 2 holds 20: it leaves `[20, 10, 20, 30]`.  The call
`v.insert(2, v[2])` reads the slot that its own shift has just destroyed, and
`v.insert(0, v[0])` on the full container `[10, 15, 20, 30]` reads a slot of
the block that the growth step has released.  Where the slot referred to lies
below `index` and no growth step runs, the code does what is specified:
`v.insert(2, v[0])` gives `[10, 20, 10, 30]`; so does it with the argument 15
from outside the buffer: `insert(1, 15)` gives `[10, 15, 20, 30]`. -/
theorem insert_aliased_argument :
    demo3.WF ∧ Arg.read (Arg.elem 2) false demo3.data_ = some 30 ∧
    demo3.content.take 0 ++ [30] ++ demo3.content.drop 0 = [30, 10, 20, 30] ∧
    insert (fun _ => true) 0 (Arg.elem 2) demo3 =
      (none, { size_ := 4, capacity_ := 4, data_ := [some 20, some 10, some 20, some 30] }) ∧
    (insert (fun _ => true) 0 (Arg.elem 2) demo3).2.content = [20, 10, 20, 30] ∧
    (insert (fun _ => true) 2 (Arg.elem 2) demo3).1 = some Failure.undefined ∧
    demo4.WF ∧ (insert (fun _ => true) 0 (Arg.elem 0) demo4).1 = some Failure.undefined ∧
    (insert (fun _ => true) 2 (Arg.elem 0) demo3).2.content = [10, 20, 10, 30] ∧
    (insert (fun _ => true) 1 (Arg.val 15) demo3).2.content = [10, 15, 20, 30] := by
  decide

/-- C2. On a valid state, `erase(index)` with `index < size` returns normally
and leaves a valid state whose content is the old content without the element
at position `index` (the others in their order), with `size` one smaller and
`capacity` unchanged. -/
theorem erase_correct {α : Type} (s : Vector α) (index : Nat)
    (hwf : s.WF) (hi : index < s.size_) :
    (erase index s).1 = none ∧ (erase index s).2.WF ∧
    (erase index s).2.content = s.content.eraseIdx index ∧
    (erase index s).2.content = s.content.take index ++ s.content.drop (index + 1) ∧
    (erase index s).2.size_ = s.size_ - 1 ∧
    (erase index s).2.capacity_ = s.capacity_ := by
  have hl := hwf.content_length
  have hlen : (s.content.eraseIdx index).length = s.size_ - 1 := by
    rw [List.length_eraseIdx_of_lt (by omega), hl]
  have hle : (s.content.eraseIdx index).length ≤ s.capacity_ := by
    have := hwf.2.1
    omega
  rw [erase_wf s index hwf hi]
  refine ⟨rfl, wf_stateOf hle, content_stateOf hle, ?_, hlen, rfl⟩
  rw [content_stateOf hle, List.eraseIdx_eq_take_drop_succ]

/-- C2, on the demo: `[10, 15, 20, 30]` with `erase(2)` gives `[10, 15, 30]`. -/
theorem erase_correct_witness :
    (erase 2 demo4).1 = none ∧
    (erase 2 demo4).2.WF ∧
    (erase 2 demo4).2.content = [10, 15, 30] ∧
    (erase 2 demo4).2.content = [10, 15] ++ [30] ∧
    (erase 2 demo4).2.size_ = 3 ∧
    (erase 2 demo4).2.capacity_ = 4 :=
  erase_correct demo4 2 (by decide) (by decide)

/-- C3. On a valid state, `erase(first, last)` with `first < last <= size`
returns normally and leaves a valid state whose content is the first `first`
elements followed by the elements from index `last` on, with `size` smaller by
`last - first` and `capacity` unchanged. -/
theorem erase_range_correct {α : Type} (s : Vector α) (first last : Nat)
    (hwf : s.WF) (hfl : first < last) (hl : last ≤ s.size_) :
    (erase_range first last s).1 = none ∧ (erase_range first last s).2.WF ∧
    (erase_range first last s).2.content = s.content.take first ++ s.content.drop last ∧
    (erase_range first last s).2.size_ = s.size_ - (last - first) ∧
    (erase_range first last s).2.capacity_ = s.capacity_ := by
  have hlen : (s.content.take first ++ s.content.drop last).length = s.size_ - (last - first) := by
    simp only [List.length_append, List.length_take, List.length_drop, hwf.content_length]
    omega
  have hle : (s.content.take first ++ s.content.drop last).length ≤ s.capacity_ := by
    have := hwf.2.1
    omega
  rw [erase_range_wf s first last hwf hfl hl]
  exact ⟨rfl, wf_stateOf hle, content_stateOf hle, hlen, rfl⟩

/-- C3, on the demo: `[10, 15, 30, 40, 50]` with `erase(1, 4)` gives `[10, 50]`
and size 2. -/
theorem erase_range_correct_witness :
    (erase_range 1 4 demo5).1 = none ∧
    (erase_range 1 4 demo5).2.WF ∧
    (erase_range 1 4 demo5).2.content = [10, 50] ∧
    (erase_range 1 4 demo5).2.size_ = 2 ∧
    (erase_range 1 4 demo5).2.capacity_ = 8 :=
  erase_range_correct demo5 1 4 (by decide) (by decide) (by decide)

/-- C4, at the full container `[10, 15, 20, 30]` of capacity 4 and the call
`v.push_back(v[0])`, whose argument is the value 10.  The specification gives
`[10, 15, 20, 30, 10]` and size 5.  The code grows first: `reserve` moves the
elements to a new block, destroys the old ones and releases the old block;
the reference is read afterwards and refers to a slot of the released block.
The call takes an undefined step and leaves size 4.  In the store the block at
address 0 is gone when the reference into it is read.  Without a growth step
the same argument is read from a live slot: on `[10, 20, 30]` of capacity 4 the
call gives `[10, 20, 30, 10]`. -/
theorem push_back_aliased_argument :
    demo4.WF ∧ Arg.read (Arg.elem 0) false demo4.data_ = some 10 ∧
    push_back (fun _ => true) (Arg.elem 0) demo4 =
      (some Failure.undefined,
        { size_ := 4, capacity_ := 8,
          data_ := [some 10, some 15, some 20, some 30, none, none, none, none] }) ∧
    Heap.readRef demoHeap4 (Ref.slot (some 0) 0) = some 10 ∧
    Heap.push_back (fun _ => true) (Ref.slot (some 0) 0) demoHeap4 demoObj4 =
      (some Failure.undefined,
        [none, some [some 10, some 15, some 20, some 30, none, none, none, none]],
        { size_ := 4, capacity_ := 8, data_ := some 1 }) ∧
    (push_back (fun _ => true) (Arg.elem 0) demo3).1 = none ∧
    (push_back (fun _ => true) (Arg.elem 0) demo3).2.content = [10, 20, 30, 10] ∧
    (push_back (fun _ => true) (Arg.val 10) demo4).2.content = [10, 15, 20, 30, 10] := by
  decide

/-- C5. `size <= capacity` holds after each constructor (default, with an
initial capacity, copy of a state that has it) and every public operation
(`reserve`, `push_back`, `pop_back`, `insert`, `erase(index)`,
`erase(first, last)`, `clear`) preserves it, whatever the call signals. -/
theorem size_le_capacity_invariant {α : Type} (A : Nat → Bool) (s : Vector α)
    (h : s.size_ ≤ s.capacity_) (cap index first last : Nat) (v : Arg α) :
    (new : Vector α).size_ ≤ (new : Vector α).capacity_ ∧
    (∀ w : Vector α, withCapacity A cap = Except.ok w → w.size_ ≤ w.capacity_) ∧
    (∀ w : Vector α, copy A s = Except.ok w → w.size_ ≤ w.capacity_) ∧
    (reserve A cap s).2.size_ ≤ (reserve A cap s).2.capacity_ ∧
    (push_back A v s).2.size_ ≤ (push_back A v s).2.capacity_ ∧
    (pop_back s).2.size_ ≤ (pop_back s).2.capacity_ ∧
    (insert A index v s).2.size_ ≤ (insert A index v s).2.capacity_ ∧
    (erase index s).2.size_ ≤ (erase index s).2.capacity_ ∧
    (erase_range first last s).2.size_ ≤ (erase_range first last s).2.capacity_ ∧
    (clear s).2.size_ ≤ (clear s).2.capacity_ := by
  refine ⟨le_refl 0, ?_, ?_, ?_, (push_back_frame A v s h).1, (pop_back_frame s h).1,
    (insert_frame A index v s h).1, (erase_frame index s h).1,
    (erase_range_frame first last s h).1, (clear_frame s h).1⟩
  · intro w hw
    have := withCapacity_frame A cap w hw
    omega
  · intro w hw
    have := copy_frame A s w hw
    omega
  · have := reserve_frame A cap s
    omega

/-- C5, on the demo state `[10, 20, 30]` of capacity 4. -/
theorem size_le_capacity_invariant_witness :
    (new : Vector Int).size_ ≤ (new : Vector Int).capacity_ ∧
    (∀ w : Vector Int, withCapacity (fun _ => true) 8 = Except.ok w → w.size_ ≤ w.capacity_) ∧
    (∀ w : Vector Int, copy (fun _ => true) demo3 = Except.ok w → w.size_ ≤ w.capacity_) ∧
    (reserve (fun _ => true) 8 demo3).2.size_ ≤ (reserve (fun _ => true) 8 demo3).2.capacity_ ∧
    (push_back (fun _ => true) (Arg.val 7) demo3).2.size_ ≤
      (push_back (fun _ => true) (Arg.val 7) demo3).2.capacity_ ∧
    (pop_back demo3).2.size_ ≤ (pop_back demo3).2.capacity_ ∧
    (insert (fun _ => true) 1 (Arg.val 7) demo3).2.size_ ≤
      (insert (fun _ => true) 1 (Arg.val 7) demo3).2.capacity_ ∧
    (erase 1 demo3).2.size_ ≤ (erase 1 demo3).2.capacity_ ∧
    (erase_range 0 2 demo3).2.size_ ≤ (erase_range 0 2 demo3).2.capacity_ ∧
    (clear demo3).2.size_ ≤ (clear demo3).2.capacity_ :=
  size_le_capacity_invariant (fun _ => true) demo3 (by decide) 8 1 0 2 (Arg.val 7)

/-- C6. On a valid state, after `push_back` the capacity is
`max(1, 2 * old capacity)` when the old size equals the old capacity and the
old capacity otherwise (so capacity 0 grows to 1); `insert` at an index within
range follows the same rule.  This holds for every argument, an element of the
container included. -/
theorem growth_policy {α : Type} (A : Nat → Bool) (s : Vector α) (index : Nat) (v : Arg α)
    (hwf : s.WF) (hi : index ≤ s.size_)
    (hA : s.size_ = s.capacity_ → A (grown s.capacity_) = true) :
    (push_back A v s).2.capacity_ =
      (if s.size_ = s.capacity_ then max 1 (2 * s.capacity_) else s.capacity_) ∧
    (insert A index v s).2.capacity_ =
      (if s.size_ = s.capacity_ then max 1 (2 * s.capacity_) else s.capacity_) ∧
    (s.capacity_ = 0 → (push_back A v s).2.capacity_ = 1 ∧ (insert A index v s).2.capacity_ = 1) := by
  rw [push_back_capacity_grow A v s, insert_capacity_grow A index v s hi, grow_wf A s hwf hA,
    ← grown_eq_max]
  refine ⟨rfl, rfl, fun h0 => ?_⟩
  have hs : s.size_ = s.capacity_ := by
    have := hwf.2.1
    omega
  show (if s.size_ = s.capacity_ then grown s.capacity_ else s.capacity_) = 1 ∧
    (if s.size_ = s.capacity_ then grown s.capacity_ else s.capacity_) = 1
  rw [if_pos hs, h0]
  exact ⟨rfl, rfl⟩

/-- C6, on the default-constructed container: capacity 0 grows to 1 in both
calls. -/
theorem growth_policy_witness :
    (push_back (fun _ => true) (Arg.val 40) (new : Vector Int)).2.capacity_ = 1 ∧
    (insert (fun _ => true) 0 (Arg.val 40) (new : Vector Int)).2.capacity_ = 1 ∧
    ((new : Vector Int).capacity_ = 0 →
      (push_back (fun _ => true) (Arg.val 40) (new : Vector Int)).2.capacity_ = 1 ∧
      (insert (fun _ => true) 0 (Arg.val 40) (new : Vector Int)).2.capacity_ = 1) :=
  growth_policy (fun _ => true) new 0 (Arg.val 40) (by decide) (by decide) (fun _ => rfl)

/-- C7. `insert(index, v)` signals OutOfRange exactly when `index > size`, and
`erase(index)` exactly when `index >= size` (so always on an empty container);
a call that signals OutOfRange leaves the object as it was: same `size`,
`capacity` and buffer, hence same content, no growth having taken place. -/
theorem insert_erase_out_of_range {α : Type} (A : Nat → Bool) (s : Vector α) (index : Nat)
    (v : Arg α) :
    ((insert A index v s).1 = some Failure.out_of_range ↔ index > s.size_) ∧
    ((insert A index v s).1 = some Failure.out_of_range → (insert A index v s).2 = s) ∧
    ((erase index s).1 = some Failure.out_of_range ↔ index ≥ s.size_) ∧
    ((erase index s).1 = some Failure.out_of_range → (erase index s).2 = s) ∧
    (s.size_ = 0 → erase index s = (some Failure.out_of_range, s)) := by
  have hins : index > s.size_ → insert A index v s = (some Failure.out_of_range, s) := by
    intro h
    unfold Vector.insert
    rw [if_pos h]
  have hers : index ≥ s.size_ → erase index s = (some Failure.out_of_range, s) := by
    intro h
    unfold erase
    rw [if_pos h]
  have h1 : (insert A index v s).1 = some Failure.out_of_range ↔ index > s.size_ := by
    constructor
    · intro h
      by_contra hn
      exact insert_ne_out_of_range A index v s (by omega) h
    · intro h
      rw [hins h]
  have h2 : (erase index s).1 = some Failure.out_of_range ↔ index ≥ s.size_ := by
    constructor
    · intro h
      by_contra hn
      exact erase_ne_out_of_range index s (by omega) h
    · intro h
      rw [hers h]
  refine ⟨h1, fun h => ?_, h2, fun h => ?_, fun h => hers (by omega)⟩
  · rw [hins (h1.1 h)]
  · rw [hers (h2.1 h)]

/-- C8. `erase(first, last)` signals OutOfRange exactly when `first >= size` or
`last > size` or `first >= last`; an empty range (`first == last`) is rejected,
and a call that signals OutOfRange leaves the object as it was. -/
theorem erase_range_out_of_range {α : Type} (s : Vector α) (first last : Nat) :
    ((erase_range first last s).1 = some Failure.out_of_range ↔
      (first ≥ s.size_ ∨ last > s.size_ ∨ first ≥ last)) ∧
    ((erase_range first last s).1 = some Failure.out_of_range → (erase_range first last s).2 = s) ∧
    erase_range first first s = (some Failure.out_of_range, s) := by
  have hrej : ∀ l, (first ≥ s.size_ ∨ l > s.size_ ∨ first ≥ l) →
      erase_range first l s = (some Failure.out_of_range, s) := by
    intro l h
    unfold erase_range
    rw [if_pos h]
  have h1 : (erase_range first last s).1 = some Failure.out_of_range ↔
      (first ≥ s.size_ ∨ last > s.size_ ∨ first ≥ last) := by
    constructor
    · intro h
      by_contra hn
      exact erase_range_ne_out_of_range first last s hn h
    · intro h
      rw [hrej last h]
  refine ⟨h1, fun h => ?_, hrej first (Or.inr (Or.inr (le_refl first)))⟩
  rw [hrej last (h1.1 h)]

/-- C9. On a valid state, `operator[]` (both forms) signals OutOfRange exactly
when `index >= size`; otherwise it returns the element at position `index` of
the content; in both cases the object is left as it was. -/
theorem subscript_correct {α : Type} (s : Vector α) (index : Nat) (hwf : s.WF) :
    ((subscript index s).1 = Except.error Failure.out_of_range ↔ index ≥ s.size_) ∧
    ((subscript index s).1 =
      match s.content[index]? with
      | some v => Except.ok v
      | none => Except.error Failure.out_of_range) ∧
    (s.content[index]? = none ↔ index ≥ s.size_) ∧
    (subscript index s).2 = s ∧
    subscript_const index s = subscript index s := by
  have hl := hwf.content_length
  have hnone : s.content[index]? = none ↔ index ≥ s.size_ := by
    rw [List.getElem?_eq_none_iff, hl]
  rw [subscript_wf s index hwf]
  refine ⟨?_, rfl, hnone, rfl, ?_⟩
  · simp only
    constructor
    · intro h
      by_contra hn
      have hlt : index < s.content.length := by omega
      rw [List.getElem?_eq_getElem hlt] at h
      cases h
    · intro h
      rw [hnone.2 h]
  · rw [← subscript_wf s index hwf]
    rfl

/-- C9, on the demo state `[10, 20, 30]`: index 1 gives 20. -/
theorem subscript_correct_witness :
    ((subscript 1 demo3).1 = Except.error Failure.out_of_range ↔ 1 ≥ demo3.size_) ∧
    ((subscript 1 demo3).1 = Except.ok 20) ∧
    (demo3.content[1]? = none ↔ 1 ≥ demo3.size_) ∧
    (subscript 1 demo3).2 = demo3 ∧
    subscript_const 1 demo3 = subscript 1 demo3 :=
  subscript_correct demo3 1 (by decide)

/-- C10. On a valid state, `reserve(cap)` with `cap > capacity` (the block being
granted) makes the capacity exactly `cap` and leaves `size` and the content
as they were; with `cap <= capacity` it changes nothing at all; in no case,
failure included, does it lower the capacity. -/
theorem reserve_correct {α : Type} (A : Nat → Bool) (s : Vector α) (cap : Nat) (hwf : s.WF) :
    (cap > s.capacity_ → A cap = true →
      (reserve A cap s).1 = none ∧ (reserve A cap s).2.WF ∧
      (reserve A cap s).2.capacity_ = cap ∧ (reserve A cap s).2.size_ = s.size_ ∧
      (reserve A cap s).2.content = s.content) ∧
    (cap ≤ s.capacity_ → reserve A cap s = (none, s)) ∧
    s.capacity_ ≤ (reserve A cap s).2.capacity_ := by
  refine ⟨fun hc hA => ?_, fun hc => ?_, (reserve_frame A cap s).2.1⟩
  · have hle : s.content.length ≤ cap := by
      have := hwf.content_le
      omega
    rw [reserve_wf A s cap hwf hc hA]
    exact ⟨rfl, wf_stateOf hle, rfl, hwf.content_length, content_stateOf hle⟩
  · unfold reserve
    rw [if_neg (by omega)]

/-- C10, on the demo state `[10, 20, 30]` of capacity 4: `reserve(8)` gives
capacity 8 and the same content. -/
theorem reserve_correct_witness :
    (8 > demo3.capacity_ → (fun _ => true) 8 = true →
      (reserve (fun _ => true) 8 demo3).1 = none ∧ (reserve (fun _ => true) 8 demo3).2.WF ∧
      (reserve (fun _ => true) 8 demo3).2.capacity_ = 8 ∧
      (reserve (fun _ => true) 8 demo3).2.size_ = demo3.size_ ∧
      (reserve (fun _ => true) 8 demo3).2.content = [10, 20, 30]) ∧
    (8 ≤ demo3.capacity_ → reserve (fun _ => true) 8 demo3 = (none, demo3)) ∧
    demo3.capacity_ ≤ (reserve (fun _ => true) 8 demo3).2.capacity_ :=
  reserve_correct (fun _ => true) demo3 8 (by decide)


/-- C11. On a valid state, `clear()` returns normally and leaves `size == 0`,
`empty()` true and the capacity it found; the state left is valid and holds
the empty sequence. -/
theorem clear_correct {α : Type} (s : Vector α) (hwf : s.WF) :
    (clear s).1 = none ∧ (clear s).2.size_ = 0 ∧ (clear s).2.empty = true ∧
    (clear s).2.capacity_ = s.capacity_ ∧ (clear s).2.WF ∧ (clear s).2.content = [] := by
  rw [clear_wf s hwf]
  exact ⟨rfl, rfl, rfl, rfl, wf_stateOf (Nat.zero_le _), content_stateOf (Nat.zero_le _)⟩

/-- C11, on the demo state `[10, 15, 30, 40, 50]` of capacity 8. -/
theorem clear_correct_witness :
    (clear demo5).1 = none ∧ (clear demo5).2.size_ = 0 ∧ (clear demo5).2.empty = true ∧
    (clear demo5).2.capacity_ = 8 ∧ (clear demo5).2.WF ∧ (clear demo5).2.content = [] :=
  clear_correct demo5 (by decide)

/-- C12. On a valid state, `pop_back()` returns normally; with `size > 0` the
content loses its last element, `size` drops by one and the capacity stays;
with `size == 0` the call changes nothing and signals nothing. -/
theorem pop_back_correct {α : Type} (s : Vector α) (hwf : s.WF) :
    (pop_back s).1 = none ∧ (pop_back s).2.WF ∧
    (pop_back s).2.content = s.content.dropLast ∧
    (pop_back s).2.size_ = s.size_ - 1 ∧
    (pop_back s).2.capacity_ = s.capacity_ ∧
    (s.size_ = 0 → pop_back s = (none, s)) := by
  have hl := hwf.content_length
  have hlen : s.content.dropLast.length = s.size_ - 1 := by
    rw [List.length_dropLast, hl]
  have hle : s.content.dropLast.length ≤ s.capacity_ := by
    have := hwf.2.1
    omega
  refine ⟨?_, ?_, ?_, ?_, ?_, fun h0 => ?_⟩
  · rw [pop_back_wf s hwf]
  · rw [pop_back_wf s hwf]
    exact wf_stateOf hle
  · rw [pop_back_wf s hwf]
    exact content_stateOf hle
  · rw [pop_back_wf s hwf]
    exact hlen
  · rw [pop_back_wf s hwf]
    rfl
  · unfold pop_back
    rw [if_neg (by omega)]

/-- C12, on the demo state `[10, 20, 30]`: the call leaves `[10, 20]`. -/
theorem pop_back_correct_witness :
    (pop_back demo3).1 = none ∧ (pop_back demo3).2.WF ∧
    (pop_back demo3).2.content = [10, 20] ∧
    (pop_back demo3).2.size_ = 2 ∧
    (pop_back demo3).2.capacity_ = 4 ∧
    (demo3.size_ = 0 → pop_back demo3 = (none, demo3)) :=
  pop_back_correct demo3 (by decide)

/-- C19. No public operation lowers the capacity: after `reserve`, `push_back`
and `insert` it is at least what it was, and after `pop_back`, both forms of
`erase`, `clear` and `operator[]` it is exactly what it was; this holds in
every state, for every allocator and whatever the call signals. -/
theorem capacity_monotone {α : Type} (A : Nat → Bool) (s : Vector α)
    (cap index first last : Nat) (v : Arg α) :
    s.capacity_ ≤ (reserve A cap s).2.capacity_ ∧
    s.capacity_ ≤ (push_back A v s).2.capacity_ ∧
    s.capacity_ ≤ (insert A index v s).2.capacity_ ∧
    (pop_back s).2.capacity_ = s.capacity_ ∧
    (erase index s).2.capacity_ = s.capacity_ ∧
    (erase_range first last s).2.capacity_ = s.capacity_ ∧
    (clear s).2.capacity_ = s.capacity_ ∧
    (subscript index s).2.capacity_ = s.capacity_ ∧
    (subscript_const index s).2.capacity_ = s.capacity_ := by
  refine ⟨(reserve_frame A cap s).2.1, push_back_capacity A v s, insert_capacity A index v s,
    pop_back_capacity s, erase_capacity index s, erase_range_capacity first last s,
    clear_capacity s, ?_, ?_⟩
  · rw [(subscript_state index s).1]
  · rw [(subscript_state index s).2]

/-- C20. Starting from the default-constructed container, `n >= 1` calls of
`push_back` in a row (every request being granted) return normally and leave
`size == n` and a capacity that is the smallest power of two that is at least
`n`, which is `2 ^ Nat.clog 2 n`; so `capacity < 2 * size` after each call of
the run. -/
theorem push_back_run_capacity {α : Type} (A : Nat → Bool) (xs : List α)
    (hrun : ∀ n, A n = true) (hne : xs ≠ []) :
    (push_all A xs new).1 = none ∧ (push_all A xs new).2.size_ = xs.length ∧
    (∃ k, (push_all A xs new).2.capacity_ = 2 ^ k ∧ xs.length ≤ 2 ^ k ∧
      ∀ j, xs.length ≤ 2 ^ j → 2 ^ k ≤ 2 ^ j) ∧
    (push_all A xs new).2.capacity_ = 2 ^ Nat.clog 2 xs.length ∧
    (push_all A xs new).2.capacity_ < 2 * (push_all A xs new).2.size_ := by
  obtain ⟨k, e, b1, b2⟩ := push_all_new_pow2 A hrun xs hne
  have hmin : ∀ j, xs.length ≤ 2 ^ j → 2 ^ k ≤ 2 ^ j := by
    intro j hj
    by_contra hlt
    have hjk : j < k := by
      by_contra hge
      exact hlt (Nat.pow_le_pow_right (by omega) (by omega))
    have h1 : 2 ^ (j + 1) ≤ 2 ^ k := Nat.pow_le_pow_right (by omega) hjk
    rw [pow_succ] at h1
    omega
  have hclog : k = Nat.clog 2 xs.length := by
    apply le_antisymm
    · have h1 := hmin _ (Nat.le_pow_clog (by omega) xs.length)
      exact (Nat.pow_le_pow_iff_right (by omega)).1 h1
    · exact (Nat.le_pow_iff_clog_le (by omega)).1 b1
  rw [e]
  refine ⟨rfl, rfl, ⟨k, rfl, b1, hmin⟩, ?_, b2⟩
  show 2 ^ k = 2 ^ Nat.clog 2 xs.length
  rw [← hclog]

/-- C20, on five calls: the capacity is 8, the smallest power of two that is
at least 5. -/
theorem push_back_run_capacity_witness :
    (push_all (fun _ => true) [(1 : Int), 2, 3, 4, 5] new).1 = none ∧
    (push_all (fun _ => true) [(1 : Int), 2, 3, 4, 5] new).2.size_ = 5 ∧
    (∃ k, (push_all (fun _ => true) [(1 : Int), 2, 3, 4, 5] new).2.capacity_ = 2 ^ k ∧
      [(1 : Int), 2, 3, 4, 5].length ≤ 2 ^ k ∧
      ∀ j, [(1 : Int), 2, 3, 4, 5].length ≤ 2 ^ j → 2 ^ k ≤ 2 ^ j) ∧
    (push_all (fun _ => true) [(1 : Int), 2, 3, 4, 5] new).2.capacity_ =
      2 ^ Nat.clog 2 [(1 : Int), 2, 3, 4, 5].length ∧
    (push_all (fun _ => true) [(1 : Int), 2, 3, 4, 5] new).2.capacity_ <
      2 * (push_all (fun _ => true) [(1 : Int), 2, 3, 4, 5] new).2.size_ :=
  push_back_run_capacity (fun _ => true) [1, 2, 3, 4, 5] (fun _ => rfl) (by decide)


/-- C18, at three calls on valid containers.  `v.push_back(v[0])` on the full
container `[10, 15, 20, 30]` reads the argument from a slot that `reserve` has
destroyed and released; `v.insert(2, v[2])` on `[10, 20, 30]` reads the slot
that its shift has just destroyed: both are reads of a slot that is not live.
The class declares no copy assignment, so `c = v` assigns the members one by
one and `c` holds the pointer of `v`: after `v.clear()` the object `c` has size
3 and no live slot, a state that is not valid, and `c.clear()` destroys slots
that are not live. -/
theorem slot_discipline_broken :
    demo4.WF ∧ (push_back (fun _ => true) (Arg.elem 0) demo4).1 = some Failure.undefined ∧
    demo3.WF ∧ (insert (fun _ => true) 2 (Arg.elem 2) demo3).1 = some Failure.undefined ∧
    (Heap.view demoHeap demoObj).WF ∧
    (Heap.copy_assign demoHeap demoNew demoObj).2.data_ = demoObj.data_ ∧
    (Heap.clear (Heap.copy_assign demoHeap demoNew demoObj).1 demoObj).1 = none ∧
    Heap.view (Heap.clear (Heap.copy_assign demoHeap demoNew demoObj).1 demoObj).2.1
        (Heap.copy_assign demoHeap demoNew demoObj).2 =
      { size_ := 3, capacity_ := 4, data_ := [none, none, none, none] } ∧
    ¬ (Heap.view (Heap.clear (Heap.copy_assign demoHeap demoNew demoObj).1 demoObj).2.1
        (Heap.copy_assign demoHeap demoNew demoObj).2).WF ∧
    (Heap.clear (Heap.clear (Heap.copy_assign demoHeap demoNew demoObj).1 demoObj).2.1
        (Heap.copy_assign demoHeap demoNew demoObj).2).1 = some Failure.undefined := by
  decide

/-- C15, at the container `[10, 20, 30]` of capacity 4.  The loop from
`rbegin()` to `rend()` that advances with `++` visits the last element, then
reads the slot at index 3, which is not a live element, and it returns
normally for no number of steps: `++` on the `T*` that `rbegin()` returns moves
away from `rend()`.  The loop from `begin()` to `end()` visits `10, 20, 30`. -/
theorem reverse_traversal_leaves_range :
    demo3.traverse demo3.rend 10 demo3.rbegin = some (some Failure.undefined, [30]) ∧
    (∀ (fuel : Nat) (vs : List Int), demo3.traverse demo3.rend fuel demo3.rbegin ≠ some (none, vs)) ∧
    demo3.traverse demo3.end_ 10 demo3.begin = some (none, [10, 20, 30]) :=
  ⟨by decide, fun fuel vs => reverse_traversal_never_returns demo3 (by decide) fuel vs,
    by decide⟩



/-- C16. With the allocator as a primitive that may refuse a request:
`reserve`, `push_back` and `insert` signal `bad_alloc` exactly when the
allocation inside `reserve` is refused, and then the object is as it was
before the call (same `size`, `capacity` and buffer, slot by slot).  In the
store the refused call leaves every block as it was, the old buffer included:
it has not been released.  This holds for every argument, an element of the
container included. -/
theorem allocation_failure_atomic {α : Type} (A : Nat → Bool) (s : Vector α)
    (cap index : Nat) (v : Arg α) (w : Ref α) (m : Heap α) (o : Obj) :
    ((reserve A cap s).1 = some Failure.bad_alloc ↔ (cap > s.capacity_ ∧ A cap = false)) ∧
    ((push_back A v s).1 = some Failure.bad_alloc ↔
      (s.size_ = s.capacity_ ∧ A (grown s.capacity_) = false)) ∧
    ((insert A index v s).1 = some Failure.bad_alloc ↔
      (index ≤ s.size_ ∧ s.size_ = s.capacity_ ∧ A (grown s.capacity_) = false)) ∧
    ((reserve A cap s).1 = some Failure.bad_alloc → (reserve A cap s).2 = s) ∧
    ((push_back A v s).1 = some Failure.bad_alloc → (push_back A v s).2 = s) ∧
    ((insert A index v s).1 = some Failure.bad_alloc → (insert A index v s).2 = s) ∧
    (cap > o.capacity_ → A cap = false →
      Heap.reserve A cap m o = (some Failure.bad_alloc, m, o)) ∧
    (o.size_ = o.capacity_ → A (grown o.capacity_) = false →
      Heap.push_back A w m o = (some Failure.bad_alloc, m, o)) ∧
    (index ≤ o.size_ → o.size_ = o.capacity_ → A (grown o.capacity_) = false →
      Heap.insert A index w m o = (some Failure.bad_alloc, m, o)) := by
  refine ⟨reserve_bad_alloc_iff A cap s, push_back_bad_alloc_iff A v s,
    insert_bad_alloc_iff A index v s, fun h => ?_, fun h => ?_, fun h => ?_,
    Heap.reserve_refusal A cap m o, Heap.push_back_refusal A w m o,
    Heap.insert_refusal A index w m o⟩
  · have h1 := (reserve_bad_alloc_iff A cap s).1 h
    rw [reserve_refused A cap s h1.1 h1.2]
  · have h1 := (push_back_bad_alloc_iff A v s).1 h
    rw [push_back_refused A v s h1.1 h1.2]
  · have h1 := (insert_bad_alloc_iff A index v s).1 h
    rw [insert_refused A index v s h1.1 h1.2.1 h1.2.2]

/-- C16, on the full demo state `[10, 15, 20, 30]` with an allocator that
refuses every request: the three calls signal `bad_alloc` and leave the state. -/
theorem allocation_failure_atomic_witness :
    reserve (fun _ => false) 9 demo4 = (some Failure.bad_alloc, demo4) ∧
    push_back (fun _ => false) (Arg.val 40) demo4 = (some Failure.bad_alloc, demo4) ∧
    insert (fun _ => false) 1 (Arg.val 40) demo4 = (some Failure.bad_alloc, demo4) ∧
    Heap.push_back (fun _ => false) (Ref.val 40) demoHeap4 demoObj4 =
      (some Failure.bad_alloc, demoHeap4, demoObj4) :=
  ⟨Prod.ext ((allocation_failure_atomic (fun _ => false) demo4 9 1 (Arg.val 40) (Ref.val 40)
        demoHeap4 demoObj4).1.2 (by decide))
      ((allocation_failure_atomic (fun _ => false) demo4 9 1 (Arg.val 40) (Ref.val 40)
        demoHeap4 demoObj4).2.2.2.1 (by decide)),
    by decide, by decide,
    (allocation_failure_atomic (fun _ => false) demo4 9 1 (Arg.val 40) (Ref.val 40)
      demoHeap4 demoObj4).2.2.2.2.2.2.2.1 rfl rfl⟩

/-- C13. The copy constructor, given a valid source and granted its block,
builds an object with the size, the capacity and, slot by slot, the buffer
of the source, hence the same content in index order; the object built is
valid.  The source is taken by `const` reference and is left as it was: for an
object of the store that is the container `s`, the copy is built in a block of
its own, it is the container `s`, and the source still is the container `s`. -/
theorem copy_correct {α : Type} (A : Nat → Bool) (s : Vector α) (hwf : s.WF)
    (hA : A s.capacity_ = true) :
    (∃ w, copy A s = Except.ok w ∧ w.size_ = s.size_ ∧ w.capacity_ = s.capacity_ ∧
      w.content = s.content ∧ w.data_ = s.data_ ∧ w.WF) ∧
    (∀ (m : Heap α) (o : Obj) (a : Nat), o.data_ = some a →
      (∃ b, m[a]? = some (some b)) → Heap.view m o = s →
      ∃ m1 c, Heap.copy A m o = Except.ok (m1, c) ∧ Heap.view m1 c = s ∧
        Heap.view m1 o = s ∧ c.data_ ≠ o.data_) := by
  refine ⟨⟨s, copy_wf A s hwf hA, rfl, rfl, rfl, rfl, hwf⟩, fun m o a ho hblk hs => ?_⟩
  have hcopy := Heap.copy_of_view A m o a s ho hblk hs hwf hA
  obtain ⟨_, hsz, hcap⟩ := Heap.view_of_block m o a s ho hs hblk
  have ha : a < m.length := by
    obtain ⟨b, hb⟩ := hblk
    by_contra h
    rw [List.getElem?_eq_none (by omega)] at hb
    cases hb
  obtain ⟨_, _, _, _, hk⟩ := Heap.keeps_copy A m _ o _ hcopy
  refine ⟨_, _, hcopy, ?_, ?_, ?_⟩
  · unfold Heap.view Heap.block
    simp only
    rw [List.getElem?_append_right (le_refl _), Nat.sub_self]
    simp only [List.getElem?_cons_zero, Option.getD_some]
    rw [← hsz, ← hcap]
  · have hsame : Heap.view (m ++ [some s.data_]) o = Heap.view m o := by
      apply Heap.view_of_keeps
      intro a' ha'
      rw [ho] at ha'
      simp only [Option.some.injEq] at ha'
      subst ha'
      exact hk a ha
    rw [hsame, hs]
  · rw [ho]
    simp only [ne_eq, Option.some.injEq]
    omega

/-- C13, on the demo state `[10, 20, 30]` of capacity 4 and on the object of
the store that is this container. -/
theorem copy_correct_witness :
    (∃ w, copy (fun _ => true) demo3 = Except.ok w ∧ w.size_ = demo3.size_ ∧
      w.capacity_ = demo3.capacity_ ∧ w.content = [10, 20, 30] ∧ w.data_ = demo3.data_ ∧ w.WF) ∧
    (∃ m1 c, Heap.copy (fun _ => true) demoHeap demoObj = Except.ok (m1, c) ∧
      Heap.view m1 c = demo3 ∧ Heap.view m1 demoObj = demo3 ∧ c.data_ ≠ demoObj.data_) :=
  ⟨(copy_correct (fun _ => true) demo3 (by decide) rfl).1,
    (copy_correct (fun _ => true) demo3 (by decide) rfl).2 demoHeap demoObj 0 rfl
      ⟨_, rfl⟩ (by decide)⟩


/-- C17, at the container `[10, 20, 30]` and a copy made of it by assignment:
`Vector<int> c; c = v;`.  The class declares no copy assignment, so the
language assigns the members one by one and `c` holds the pointer of `v`.
The write `c[0] = 7` then changes the content of `v` to `[7, 20, 30]`, a
`push_back` on `c` appends in the block of `v`, and `c.clear()` destroys the
elements of `v`, which keeps size 3.  The copy that the copy constructor
builds takes a block of its own: the same write on it leaves `v` as it is. -/
theorem copy_assignment_shares_buffer :
    (Heap.view demoHeap demoObj).content = [10, 20, 30] ∧
    (Heap.copy_assign demoHeap demoNew demoObj).1 = demoHeap ∧
    (Heap.copy_assign demoHeap demoNew demoObj).2.data_ = demoObj.data_ ∧
    (Heap.subscript_assign 0 7 (Heap.copy_assign demoHeap demoNew demoObj).1
      (Heap.copy_assign demoHeap demoNew demoObj).2).1 = none ∧
    (Heap.view (Heap.subscript_assign 0 7 (Heap.copy_assign demoHeap demoNew demoObj).1
      (Heap.copy_assign demoHeap demoNew demoObj).2).2.1 demoObj).content = [7, 20, 30] ∧
    (Heap.view (Heap.push_back (fun _ => true) (Ref.val 7)
      (Heap.copy_assign demoHeap demoNew demoObj).1
      (Heap.copy_assign demoHeap demoNew demoObj).2).2.1 demoObj).data_ =
        [some 10, some 20, some 30, some 7] ∧
    Heap.view (Heap.clear (Heap.copy_assign demoHeap demoNew demoObj).1
      (Heap.copy_assign demoHeap demoNew demoObj).2).2.1 demoObj =
        { size_ := 3, capacity_ := 4, data_ := [none, none, none, none] } ∧
    Heap.copy (fun _ => true) demoHeap demoObj = Except.ok (demoHeap2, demoCopy) ∧
    (Heap.view (Heap.subscript_assign 0 7 demoHeap2 demoCopy).2.1 demoObj).content =
      [10, 20, 30] :=
  ⟨by decide, by decide, by decide, by decide, by decide, by decide, by decide, rfl, by decide⟩

end TestTask
